import Mathlib

/-!
The `topsort` command (`topsort/cmd/root.go`): a model of the command.

The command reads its flags, computes the list of inputs, parses every input
into one graph through a line source built on a buffered reader, runs one of
the two ordering algorithms of the graph library and prints the labels.

* Go strings are byte sequences (`Str`).
* A Go call returns, stops the program with a run-time panic, or does not
  return (`Outcome`).
* The effects of the command are recorded as a trace of `Event`s.
* The graph library (`NewGraph`, `ParseLines`, `TopSort`, `DepthFirst`) is a
  parameter of the command (`GraphLib`); `specLib` is the library as the spec
  describes it, its loops bounded by a step budget.

The definitions come first, then the lemmas, then the theorems C1 to C10.
-/

namespace Topsort

/-! ## Strings, errors, outcomes -/

/-- Go `byte`. -/
abbrev Byte := UInt8

/-- Go `string`: an immutable sequence of bytes. -/
abbrev Str := List Byte

/-- The bytes of an ASCII literal. -/
def ascii (s : String) : Str := s.toList.map (fun c => UInt8.ofNat c.toNat)

/-- The byte `'\n'`. -/
def nl : Byte := 10

/-- The byte `'\r'`. -/
def cr : Byte := 13

/-- The input name `"-"` that stands for standard input. -/
def dash : Str := [45]

/-- Go `error` values that the command meets or builds. -/
inductive Err where
  /-- The end-of-input signal `io.EOF`. -/
  | EOF
  /-- The error `fmt.Errorf(msg)`. -/
  | errorf (msg : String)
  /-- The error `errwrap.Wrap(cause, format, args...)`. -/
  | wrap (cause : Err) (format : String) (args : List Str)
  /-- An error of the operating system or of a library, identified by a code. -/
  | sys (code : Nat)
  /-- The parse error of the graph library: offending line and token. -/
  | parseError (line token : Str)
  /-- The cycle error of the graph library: the unresolved nodes. -/
  | cycleError (nodes : List Str)
  deriving DecidableEq, Repr

/-- Go run-time panics raised by string indexing and slicing. -/
inductive RuntimeError where
  /-- The panic `index out of range [i] with length len`. -/
  | indexOutOfRange (i : Int) (len : Nat)
  /-- The panic `slice bounds out of range [lo:hi] with length len`. -/
  | sliceBounds (lo hi : Int) (len : Nat)
  deriving DecidableEq, Repr

/-- What a Go call does: it returns a value, it panics, or it does not return
within the step budget. -/
inductive Outcome (α : Type) where
  | ret (a : α)
  | crash (p : RuntimeError)
  | noReturn
  deriving DecidableEq, Repr

/-- Go `s[i]` on a string, with its bounds check. -/
def index (s : Str) (i : Int) : Except RuntimeError Byte :=
  if 0 ≤ i ∧ i < (s.length : Int) then
    match s.get? i.toNat with
    | some c => .ok c
    | none => .error (.indexOutOfRange i s.length)
  else .error (.indexOutOfRange i s.length)

/-- Go `s[lo:hi]` on a string, with its bounds check. -/
def slice (s : Str) (lo hi : Int) : Except RuntimeError Str :=
  if 0 ≤ lo ∧ lo ≤ hi ∧ hi ≤ (s.length : Int) then
    .ok ((s.take hi.toNat).drop lo.toNat)
  else .error (.sliceBounds lo hi s.length)

/-! ## The buffered reader -/

/-- The state of a `bufio.Reader` over an input: the bytes not yet consumed,
and the error the underlying reader reports once they are exhausted (`io.EOF`
for a regular end of input). -/
structure Reader where
  data : Str
  fail : Err
  deriving DecidableEq, Repr

/-- Splits at the first `delim`: the text up to and including it, and the rest;
`none` when `delim` does not occur. -/
def splitDelim (delim : Byte) : Str → Option (Str × Str)
  | [] => none
  | c :: cs =>
    if c = delim then some ([c], cs)
    else
      match splitDelim delim cs with
      | some (l, r) => some (c :: l, r)
      | none => none

/-- Reads a delimited string as `bufio.Reader.ReadString` documents it: reads
until the first occurrence of `delim`, returning the data up to and including
the delimiter; on an error before a delimiter is found it returns the data read
before the error and the error itself. -/
def ReadString (b : Reader) (delim : Byte) : (Str × Option Err) × Reader :=
  match splitDelim delim b.data with
  | some (line, rest) => ((line, none), { b with data := rest })
  | none => ((b.data, some b.fail), { b with data := [] })

/-! ## The line source (root.go, lines 110-119) -/

/-- The body of the line source after `ReadString` returned `(line, err)`
(root.go, lines 112-118): the pair it returns, or the panic it raises. -/
def stripLine : Str × Option Err → Except RuntimeError (Str × Option Err)
  | (_, some err) => .ok ([], some err)
  | (line, none) =>
    match index line ((line.length : Int) - 2) with
    | .error p => .error p
    | .ok c =>
      if c = cr then
        match slice line 0 ((line.length : Int) - 2) with
        | .ok s => .ok (s, none)
        | .error p => .error p
      else
        match slice line 0 ((line.length : Int) - 1) with
        | .ok s => .ok (s, none)
        | .error p => .error p

/-- The closure passed to `ParseLines` (root.go, lines 110-119), as a step on
the state of the buffered reader `b` it captures. -/
def nextLine (b : Reader) : Except RuntimeError (Str × Option Err) × Reader :=
  ((stripLine (ReadString b nl).1), (ReadString b nl).2)

/-- Calls the line source up to `n` times, stopping after the first call that
does not return a line: the results of the calls made, in order. -/
def pull : Nat → Reader → List (Except RuntimeError (Str × Option Err))
  | 0, _ => []
  | n + 1, b =>
    match nextLine b with
    | (.ok (s, none), b') => .ok (s, none) :: pull n b'
    | (r, _) => [r]

/-! ## The graph library, as a parameter -/

/-- A line source handed to `ParseLines`: a Go closure `func() (string, error)`
with the state it captures; a call returns its pair or panics. -/
structure LineSource where
  σ : Type
  state : σ
  next : σ → Except RuntimeError (Str × Option Err) × σ

/-- The operations of the graph library the command calls. The graph is mutated
in place by `ParseLines`, which is modelled by returning the graph with the
error. A call of the library returns, panics or does not return. -/
structure GraphLib (G : Type) where
  NewGraph : G
  ParseLines : G → Str → Str → LineSource → Outcome (G × Option Err)
  TopSort : G → Outcome (List Str × Option Err)
  DepthFirst : G → Outcome (List Str × Option Err)

/-! ## The command -/

/-- The observable effects of the command. -/
inductive Event where
  /-- The call `topsort.NewGraph()`. -/
  | newGraph
  /-- The call `os.Open(f)`. -/
  | openFile (f : Str)
  /-- The call of `graph.ParseLines` with the line source over input `f`: the
  only place where input `f` is read. -/
  | parseLines (f : Str)
  /-- The deferred `fi.Close()` of input `f`. -/
  | closeFile (f : Str)
  /-- The call `graph.TopSort()`. -/
  | topSort
  /-- The call `graph.DepthFirst()`. -/
  | depthFirst
  /-- The call `os.Stdout.WriteString(s)`. -/
  | write (s : Str)
  deriving DecidableEq, Repr

/-- What the command runs in: the parsed flags, the file system, standard
input and the graph library. -/
structure Env (G : Type) where
  /-- The lookup `cmd.Flags().GetString(name)`. -/
  getString : String → Str × Option Err
  /-- The lookup `cmd.Flags().GetBool(name)`. -/
  getBool : String → Bool × Option Err
  /-- The call `filepath.Abs(f)`. -/
  abs : Str → Str × Option Err
  /-- The call `os.Open(f)`, giving the state of a reader over the file. -/
  openFile : Str → Except Err Reader
  /-- The stream `os.Stdin`. -/
  stdin : Reader
  /-- The graph library. -/
  lib : GraphLib G

/-- One run of the command: the trace of its effects and how it ended. -/
structure Run where
  trace : List Event
  result : Outcome (Option Err)
  deriving DecidableEq, Repr

/-- The flags (root.go, lines 54-73): pair separator, edge separator and
selector, or the error the command returns. -/
def readFlags {G : Type} (env : Env G) : Except Err (Str × Str × Bool) :=
  match env.getString "pair-sep" with
  | (_, some err) => .error err
  | (pairSep, none) =>
    if pairSep = [] then .error (.errorf "Pair separator is empty.")
    else
      match env.getString "edge-sep" with
      | (_, some err) => .error err
      | (edgeSep, none) =>
        if edgeSep = [] then .error (.errorf "Edge separator is empty.")
        else
          match env.getBool "top-sort" with
          | (_, some err) => .error err
          | (topSort, none) => .ok (pairSep, edgeSep, topSort)

/-- The loop over the arguments (root.go, lines 81-92), on the arguments still
to visit, the keys of `filesNamesMap` and the list `filesNames` built so far. -/
def collectNames (abs : Str → Str × Option Err) :
    List Str → List Str → List Str → Except Err (List Str)
  | [], _, names => .ok names
  | f :: rest, filesNamesMap, names =>
    match (if f ≠ dash then abs f else (f, none)) with
    | (_, some err) => .error (.wrap err "Get Abs path" [])
    | (f', none) =>
      if f' ∈ filesNamesMap then collectNames abs rest filesNamesMap names
      else collectNames abs rest (f' :: filesNamesMap) (names ++ [f'])

/-- The list of inputs (root.go, lines 75-93). -/
def filesNames (abs : Str → Str × Option Err) (args : List Str) : Except Err (List Str) :=
  if args.length = 0 then .ok [dash] else collectNames abs args [] []

/-- The line source over a reader (root.go, lines 109-119). -/
def lineSource (b : Reader) : LineSource := ⟨Reader, b, nextLine⟩

/-- The function `read` (root.go, lines 97-120) on input `f` and graph `g`: its
effects, and the graph with the error it returns. -/
def read {G : Type} (env : Env G) (edgeSep pairSep : Str) (f : Str) (g : G) :
    List Event × Outcome (G × Option Err) :=
  if f = dash then
    ([.parseLines f], env.lib.ParseLines g edgeSep pairSep (lineSource env.stdin))
  else
    match env.openFile f with
    | .error err => ([.openFile f], .ret (g, some err))
    | .ok fi =>
      match env.lib.ParseLines g edgeSep pairSep (lineSource fi) with
      | .noReturn => ([.openFile f, .parseLines f], .noReturn)
      | r => ([.openFile f, .parseLines f, .closeFile f], r)

/-- The read loop (root.go, lines 122-127): the effects, and the graph after the
last input, or the wrapped error of the first input that failed. -/
def readAll {G : Type} (env : Env G) (edgeSep pairSep : Str) :
    List Str → G → List Event × Outcome (Except Err G)
  | [], g => ([], .ret (.ok g))
  | f :: rest, g =>
    match read env edgeSep pairSep f g with
    | (tr, .crash p) => (tr, .crash p)
    | (tr, .noReturn) => (tr, .noReturn)
    | (tr, .ret (_, some err)) => (tr, .ret (.error (.wrap err "Read from %q failed" [f])))
    | (tr, .ret (g', none)) =>
      ((tr ++ (readAll env edgeSep pairSep rest g').1), (readAll env edgeSep pairSep rest g').2)

/-- The selected classifier and the printing of its result (root.go, lines
129-145). -/
def classify {G : Type} (lib : GraphLib G) (topSort : Bool) (g : G) : Run :=
  if topSort then
    match lib.TopSort g with
    | .crash p => ⟨[.topSort], .crash p⟩
    | .noReturn => ⟨[.topSort], .noReturn⟩
    | .ret (_, some err) => ⟨[.topSort], .ret (some (.wrap err "Top Sort classifier" []))⟩
    | .ret (results, none) =>
      ⟨.topSort :: results.map (fun r => .write (r ++ [nl])), .ret none⟩
  else
    match lib.DepthFirst g with
    | .crash p => ⟨[.depthFirst], .crash p⟩
    | .noReturn => ⟨[.depthFirst], .noReturn⟩
    | .ret (_, some err) =>
      ⟨[.depthFirst], .ret (some (.wrap err "Depth-First classifier" []))⟩
    | .ret (results, none) =>
      ⟨.depthFirst :: results.map (fun r => .write (r ++ [nl])), .ret none⟩

/-- The command `rootCmd.RunE` (root.go, lines 53-146). -/
def RunE {G : Type} (env : Env G) (args : List Str) : Run :=
  match readFlags env with
  | .error err => ⟨[], .ret (some err)⟩
  | .ok (pairSep, edgeSep, topSort) =>
    match filesNames env.abs args with
    | .error err => ⟨[], .ret (some err)⟩
    | .ok names =>
      match readAll env edgeSep pairSep names env.lib.NewGraph with
      | (tr, .crash p) => ⟨.newGraph :: tr, .crash p⟩
      | (tr, .noReturn) => ⟨.newGraph :: tr, .noReturn⟩
      | (tr, .ret (.error err)) => ⟨.newGraph :: tr, .ret (some err)⟩
      | (tr, .ret (.ok g)) =>
        ⟨.newGraph :: tr ++ (classify env.lib topSort g).trace,
          (classify env.lib topSort g).result⟩

/-- The text on standard output: the strings written, in order. -/
def stdout : List Event → Str
  | [] => []
  | .write s :: tr => s ++ stdout tr
  | _ :: tr => stdout tr

/-- The text of a line without its carriage return: what remains of the body of
a line (the line without its final newline) once a trailing `'\r'` is dropped. -/
def dropCR (body : Str) : Str :=
  if body.getLast? = some cr then body.dropLast else body

/-- The name an argument stands for in the list of inputs: its absolute path,
or `"-"` kept as it is. -/
def resolved (abs : Str → Str × Option Err) (f : Str) : Str :=
  if f ≠ dash then (abs f).1 else f

/-- The position of the first occurrence of `x` in `l`. -/
def firstIndex (x : Str) : List Str → Nat
  | [] => 0
  | y :: ys => if y = x then 0 else firstIndex x ys + 1

/-- The input an event reads, if it is a call of `ParseLines`. -/
def parsedInput : Event → Option Str
  | .parseLines f => some f
  | _ => none

/-- The events of reading input `f`: opening, parsing, closing. -/
def Event.onInput (ev : Event) (f : Str) : Prop :=
  ev = .openFile f ∨ ev = .parseLines f ∨ ev = .closeFile f

/-- The string an event writes to standard output, if it is a write. -/
def written : Event → Option Str
  | .write s => some s
  | _ => none

/-- The write events of a classifier call: one per label when it returns a nil
error, none otherwise. -/
def printed : Outcome (List Str × Option Err) → List Event
  | .ret (results, none) => results.map (fun r => .write (r ++ [nl]))
  | _ => []

/-! ## The graph library, modelled from the spec -/

/-- Modelled from the spec: the graph of the library (spec, section 3). The
library itself (`NewGraph`, `ParseLines`, `TopSort`, `DepthFirst`) is not among
the sources. The node set is kept in insertion order; the edges are kept in
insertion order and without duplicates, and the outgoing and incoming
neighbours of a node are read off them. -/
structure Graph where
  nodes : List Str
  edges : List (Str × Str)
  deriving DecidableEq, Repr

/-- Modelled from the spec: the empty graph the library constructs (section 3,
"the Graph is constructed empty"). -/
def NewGraph : Graph := ⟨[], []⟩

/-- Modelled from the spec: the idempotent registration of a label (section 3,
"re-insertion of an already-known label is a no-op"; section 9). -/
def Graph.ensureNode (g : Graph) (n : Str) : Graph :=
  if n ∈ g.nodes then g else { g with nodes := g.nodes ++ [n] }

/-- Modelled from the spec: the insertion of an edge (section 3): both endpoints
are registered, and inserting the same edge twice has no additional effect. -/
def Graph.addEdge (g : Graph) (s t : Str) : Graph :=
  if (s, t) ∈ ((g.ensureNode s).ensureNode t).edges then (g.ensureNode s).ensureNode t
  else { (g.ensureNode s).ensureNode t with
    edges := ((g.ensureNode s).ensureNode t).edges ++ [(s, t)] }

/-- Modelled from the spec: the outgoing neighbours of a node, in insertion
order of the edges (section 4.2). -/
def Graph.outgoing (g : Graph) (s : Str) : List Str :=
  (g.edges.filter (fun e => e.1 = s)).map (fun e => e.2)

/-- Modelled from the spec: the in-degree of a node, its count of incoming edges
(section 4.2). -/
def Graph.inDegree (g : Graph) (t : Str) : Int :=
  ((g.edges.filter (fun e => e.2 = t)).length : Int)

/-- Modelled from the spec: the test that a separator occurs at the head of a
text (section 4.1, the match of a separator). -/
def startsWith : Str → Str → Bool
  | [], _ => true
  | _ :: _, [] => false
  | a :: sep, c :: s => a = c && startsWith sep s

/-- Modelled from the spec: the split of a text on every occurrence of a
separator (section 4.1, step 1), scanning from the left; `skip` bytes of a
separator just matched are still to be passed and `cur` is the token read so
far. -/
def splitScan (sep : Str) : Str → Nat → Str → List Str
  | [], _, cur => [cur]
  | _ :: cs, skip + 1, cur => splitScan sep cs skip cur
  | c :: cs, 0, cur =>
    if startsWith sep (c :: cs) then cur :: splitScan sep cs (sep.length - 1) []
    else splitScan sep cs 0 (cur ++ [c])

/-- Modelled from the spec: the pair-tokens of a line (section 4.1, step 1): the
line split on the pair separator, empty tokens discarded. -/
def pairTokens (pairSep line : Str) : List Str :=
  (splitScan pairSep line 0 []).filter (fun tok => tok ≠ [])

/-- Modelled from the spec: the split of a token on the first occurrence of the
edge separator (section 4.1, step 2); `none` when the separator does not
occur. -/
def cutFirst (sep : Str) : Str → Option (Str × Str)
  | [] => none
  | c :: cs =>
    if startsWith sep (c :: cs) then some ([], (c :: cs).drop sep.length)
    else
      match cutFirst sep cs with
      | some (a, b) => some (c :: a, b)
      | none => none

/-- Modelled from the spec: the decoding of one pair-token (section 4.1, step
2): an edge when the split gives two non-empty parts, an isolated node when the
token holds no edge separator, a parse error when a part is empty. -/
def parseToken (edgeSep line tok : Str) (g : Graph) : Graph × Option Err :=
  match cutFirst edgeSep tok with
  | none => (g.ensureNode tok, none)
  | some (s, t) =>
    if s = [] ∨ t = [] then (g, some (.parseError line tok))
    else (g.addEdge s t, none)

/-- Modelled from the spec: the decoding of the pair-tokens of a line, in order,
stopping at the first malformed one (section 4.1; section 7, "aborts the whole
parse"). -/
def parseTokens (edgeSep line : Str) : List Str → Graph → Graph × Option Err
  | [], g => (g, none)
  | tok :: toks, g =>
    match parseToken edgeSep line tok g with
    | (g1, some err) => (g1, some err)
    | (g1, none) => parseTokens edgeSep line toks g1

/-- Modelled from the spec: the decoding of one line (section 4.1). -/
def parseLine (edgeSep pairSep line : Str) (g : Graph) : Graph × Option Err :=
  parseTokens edgeSep line (pairTokens pairSep line) g

/-- Modelled from the spec: the loop of `parseLines` (section 4.1): it calls the
line source until it signals the end of input, which ends the parse with
success; a line is decoded into the graph; a parse error, or another error of
the line source, is returned. A panic of the line source ends the call. The
loop runs for at most `fuel` calls of the line source. -/
def parseLoop (edgeSep pairSep : Str) {σ : Type}
    (next : σ → Except RuntimeError (Str × Option Err) × σ) :
    Nat → σ → Graph → Outcome (Graph × Option Err)
  | 0, _, _ => .noReturn
  | fuel + 1, st, g =>
    match next st with
    | (.error p, _) => .crash p
    | (.ok (_, some err), _) => if err = .EOF then .ret (g, none) else .ret (g, some err)
    | (.ok (line, none), st1) =>
      match parseLine edgeSep pairSep line g with
      | (g1, some err) => .ret (g1, some err)
      | (g1, none) => parseLoop edgeSep pairSep next fuel st1 g1

/-- Modelled from the spec: the operation `parseLines(edgeSeparator,
pairSeparator, nextLine)` of the library (section 4.1), run for at most `fuel`
calls of the line source. -/
def ParseLines (fuel : Nat) (g : Graph) (edgeSep pairSep : Str) (src : LineSource) :
    Outcome (Graph × Option Err) :=
  parseLoop edgeSep pairSep src.next fuel src.state g

/-- Modelled from the spec: the state of the topological classifier (section
4.2): the current in-degrees, the ready queue and the result. -/
structure KahnState where
  indeg : Str → Int
  queue : List Str
  result : List Str

/-- Modelled from the spec: the treatment of one outgoing neighbour (section
4.2): its in-degree is decremented, and it is enqueued when the in-degree
reaches zero. -/
def relax (st : KahnState) (t : Str) : KahnState :=
  { indeg := fun x => if x = t then st.indeg t - 1 else st.indeg x
    queue := if st.indeg t - 1 = 0 then st.queue ++ [t] else st.queue
    result := st.result }

/-- Modelled from the spec: one round of the topological classifier (section
4.2): the earliest-queued ready node `n` is removed from the queue `n :: q` and
appended to the result, and its outgoing neighbours are treated in insertion
order of the edges. -/
def kahnStep (g : Graph) (st : KahnState) (n : Str) (q : List Str) : KahnState :=
  (g.outgoing n).foldl relax { indeg := st.indeg, queue := q, result := st.result ++ [n] }

/-- Modelled from the spec: the rounds of the topological classifier until the
queue is empty (section 4.2), at most `fuel` of them; `none` when the queue is
not empty after `fuel` rounds. -/
def kahnLoop (g : Graph) : Nat → KahnState → Option KahnState
  | _, ⟨indeg, [], result⟩ => some ⟨indeg, [], result⟩
  | 0, ⟨_, _ :: _, _⟩ => none
  | fuel + 1, ⟨indeg, n :: q, result⟩ => kahnLoop g fuel (kahnStep g ⟨indeg, n :: q, result⟩ n q)

/-- Modelled from the spec: the initial state of the topological classifier
(section 4.2): the in-degree of every node, and the ready queue seeded with the
nodes of in-degree zero in node insertion order. -/
def kahnInit (g : Graph) : KahnState :=
  { indeg := g.inDegree
    queue := g.nodes.filter (fun n => g.inDegree n = 0)
    result := [] }

/-- Modelled from the spec: the operation `topSort()` (section 4.2), run for at
most `fuel` rounds: the result when it contains every node, otherwise the cycle
error naming the nodes that are not in it. -/
def TopSort (fuel : Nat) (g : Graph) : Outcome (List Str × Option Err) :=
  match kahnLoop g fuel (kahnInit g) with
  | none => .noReturn
  | some st =>
    if g.nodes.all (fun n => n ∈ st.result) then .ret (st.result, none)
    else .ret ([], some (.cycleError (g.nodes.filter (fun n => n ∉ st.result))))

/-- Modelled from the spec: the state of the depth-first classifier (section
4.3): the nodes in progress, innermost first, and the nodes done, in the order
of the result; a node in neither list is unvisited. -/
structure DfsState where
  inProgress : List Str
  done : List Str
  deriving DecidableEq, Repr

/-- Modelled from the spec: what a visit of the depth-first classifier gives
(section 4.3): the new state, a cycle, or nothing when it is out of fuel. -/
inductive Visit where
  | ok (st : DfsState)
  | cycle (nodes : List Str)
  | outOfFuel
  deriving DecidableEq, Repr

/-- Modelled from the spec: the visits of the neighbours `ts` of a node, in
insertion order (section 4.3), stopping at the first one that fails. -/
def visitList (visit : Str → DfsState → Visit) : List Str → DfsState → Visit
  | [], st => .ok st
  | t :: ts, st =>
    match visit t st with
    | .ok st1 => visitList visit ts st1
    | r => r

/-- Modelled from the spec: the visit of a node by the depth-first classifier
(section 4.3): a node that is done is passed; a node in progress is a back edge
and fails with the cycle from that node back to itself; an unvisited node is put
in progress, its outgoing neighbours are visited, and it is appended to the
result and marked done. Visits nest at most `fuel` deep. -/
def visit (g : Graph) : Nat → Str → DfsState → Visit
  | fuel, n, st =>
    if n ∈ st.done then .ok st
    else if n ∈ st.inProgress then
      .cycle (n :: (st.inProgress.takeWhile (fun x => x ≠ n)).reverse ++ [n])
    else
      match fuel with
      | 0 => .outOfFuel
      | fuel + 1 =>
        match visitList (visit g fuel) (g.outgoing n) ⟨n :: st.inProgress, st.done⟩ with
        | .ok st1 => .ok ⟨st.inProgress, st1.done ++ [n]⟩
        | r => r

/-- Modelled from the spec: the operation `depthFirst()` (section 4.3), with
visits nested at most `fuel` deep: the nodes are the roots of the traversal in
insertion order; the result is the order in which the nodes are done, or the
cycle error. -/
def DepthFirst (fuel : Nat) (g : Graph) : Outcome (List Str × Option Err) :=
  match visitList (visit g fuel) g.nodes ⟨[], []⟩ with
  | .ok st => .ret (st.done, none)
  | .cycle nodes => .ret ([], some (.cycleError nodes))
  | .outOfFuel => .noReturn

/-- Modelled from the spec: the graph library (sections 3 and 4), each
operation run within the step budget `fuel`. -/
def specLib (fuel : Nat) : GraphLib Graph :=
  { NewGraph := NewGraph
    ParseLines := ParseLines fuel
    TopSort := TopSort fuel
    DepthFirst := DepthFirst fuel }

/-- The flag set that `init` registers (root.go, lines 159-162), holding the
given values of `pair-sep`, `edge-sep` and `top-sort`: the lookups by name of
the string flags and of the boolean flags. -/
def flagsOf (pairSep edgeSep : Str) (topSort : Bool) :
    (String → Str × Option Err) × (String → Bool × Option Err) :=
  (fun name =>
      if name = "pair-sep" then (pairSep, none)
      else if name = "edge-sep" then (edgeSep, none)
      else ([], some (.errorf "flag accessed but not defined")),
    fun name =>
      if name = "top-sort" then (topSort, none)
      else if name = "toggle" then (false, none)
      else (false, some (.errorf "flag accessed but not defined")))

/-- The flag set with the default values `init` gives (root.go, lines 159-161):
`top-sort` is false, `pair-sep` is `","` and `edge-sep` is `"-"`. -/
def initFlags : (String → Str × Option Err) × (String → Bool × Option Err) :=
  flagsOf (ascii ",") (ascii "-") false

/-- An environment for the examples: the given flags, an absolute path made by
prefixing `"/"`, the given files, the given text on standard input, and the
library modelled from the spec with a budget of 100 steps. -/
def exampleEnv (pairSep edgeSep : Str) (topSort : Bool) (files : List (Str × Str))
    (stdin : Str) : Env Graph :=
  { getString := (flagsOf pairSep edgeSep topSort).1
    getBool := (flagsOf pairSep edgeSep topSort).2
    abs := fun f => (if f.head? = some 47 then f else 47 :: f, none)
    openFile := fun f =>
      match files.lookup f with
      | some text => .ok ⟨text, .EOF⟩
      | none => .error (.sys 2)
    stdin := ⟨stdin, .EOF⟩
    lib := specLib 100 }

/-- A graph the library can build: no label and no edge is held twice, and the
endpoints of every edge are nodes (spec, section 3, invariant). -/
structure Graph.WF (g : Graph) : Prop where
  nodes_nodup : g.nodes.Nodup
  edges_nodup : g.edges.Nodup
  src_mem : ∀ e ∈ g.edges, e.1 ∈ g.nodes
  dst_mem : ∀ e ∈ g.edges, e.2 ∈ g.nodes

/-- The number of incoming edges of `t` whose source is not in `res`. -/
def pending (g : Graph) (res : List Str) (t : Str) : Int :=
  ((g.edges.filter (fun e => e.2 = t ∧ e.1 ∉ res)).length : Int)

/-- The invariant of the rounds of the topological classifier. -/
structure KahnInv (g : Graph) (st : KahnState) : Prop where
  nodup : (st.result ++ st.queue).Nodup
  mem_nodes : ∀ x ∈ st.result ++ st.queue, x ∈ g.nodes
  indeg_eq : ∀ t, st.indeg t = pending g st.result t
  ready : ∀ x ∈ g.nodes, st.indeg x = 0 ↔ x ∈ st.result ++ st.queue
  ordered : ∀ e ∈ g.edges, e.2 ∈ st.result →
    e.1 ∈ st.result ∧ firstIndex e.1 st.result < firstIndex e.2 st.result

/-- The reader that `read` builds for input `f` (root.go, lines 98-109):
standard input for `"-"`, the opened file otherwise. -/
def inputOf {G : Type} (env : Env G) (f : Str) : Option Reader :=
  if f = dash then some env.stdin
  else
    match env.openFile f with
    | .ok fi => some fi
    | .error _ => none

/-- The edges written in an input: `(s, t)` is the split, at the first edge
separator, of a pair-token of a line that the line source delivers from the
reader `b`. -/
def TokenEdge (edgeSep pairSep : Str) (b : Reader) (s t : Str) : Prop :=
  ∃ m line tok, Except.ok (line, none) ∈ pull m b ∧ tok ∈ pairTokens pairSep line ∧
    cutFirst edgeSep tok = some (s, t)

/-- A cycle of the graph: a node from which a non-empty chain of edges leads
back to the node (a self-edge is a chain of one edge). -/
def Graph.HasCycle (g : Graph) : Prop :=
  ∃ n, Relation.TransGen (fun a b => (a, b) ∈ g.edges) n n

/-! ## Example runs -/

/-- The line of the help text, as `echo "A-B,B-C,B-D,E-D,F"` writes it. -/
def helpInput : Str := ascii "A-B,B-C,B-D,E-D,F\n"

/-- The graph of the line of the help text. -/
def helpGraph : Graph :=
  { nodes := [ascii "A", ascii "B", ascii "C", ascii "D", ascii "E", ascii "F"]
    edges := [(ascii "A", ascii "B"), (ascii "B", ascii "C"), (ascii "B", ascii "D"),
      (ascii "E", ascii "D")] }

/-- The run `echo "A-B,B-C,B-D,E-D,F" | topsort`, with the selector as given. -/
def helpEnv (topSort : Bool) : Env Graph :=
  exampleEnv (ascii ",") (ascii "-") topSort [] helpInput

/-- The run `echo "A-B,B-A" | topsort`, with the selector as given: an input
with a cycle. -/
def cycleEnv (topSort : Bool) : Env Graph :=
  exampleEnv (ascii ",") (ascii "-") topSort [] (ascii "A-B,B-A\n")

/-- The graph of the input with a cycle. -/
def cycleGraph : Graph :=
  { nodes := [ascii "A", ascii "B"]
    edges := [(ascii "A", ascii "B"), (ascii "B", ascii "A")] }

/-- The run `echo "C-A" | topsort x - /x y z` in the root directory, where the
file `/x` holds the line `A-B`, the file `/z` holds the line `D-E` and there is
no file `/y`. -/
def filesEnv : Env Graph :=
  exampleEnv (ascii ",") (ascii "-") true
    [(ascii "/x", ascii "A-B\n"), (ascii "/z", ascii "D-E\n")] (ascii "C-A\n")

/-- The arguments of the run with files. -/
def filesArgs : List Str := [ascii "x", ascii "-", ascii "/x", ascii "y", ascii "z"]

/-- The graph of the run with files once `/x` and standard input are parsed. -/
def filesGraph : Graph :=
  { nodes := [ascii "A", ascii "B", ascii "C"]
    edges := [(ascii "A", ascii "B"), (ascii "C", ascii "A")] }

/-! ## The line source: lemmas -/

theorem splitDelim_some {delim : Byte} {s line rest : Str}
    (h : splitDelim delim s = some (line, rest)) :
    ∃ body, line = body ++ [delim] ∧ delim ∉ body ∧ s = line ++ rest := by
  induction s generalizing line rest with
  | nil => simp [splitDelim] at h
  | cons c cs ih =>
    unfold splitDelim at h
    by_cases hc : c = delim
    · simp only [hc, if_true, Option.some.injEq, Prod.mk.injEq] at h
      obtain ⟨rfl, rfl⟩ := h
      exact ⟨[], by simp [hc]⟩
    · simp only [hc, if_false] at h
      cases hs : splitDelim delim cs with
      | none => simp [hs] at h
      | some lr =>
        obtain ⟨l, r⟩ := lr
        simp only [hs, Option.some.injEq, Prod.mk.injEq] at h
        obtain ⟨rfl, rfl⟩ := h
        obtain ⟨body, hb, hnot, hcs⟩ := ih hs
        refine ⟨c :: body, by simp [hb], ?_, by simp [hcs]⟩
        intro hmem
        rcases List.mem_cons.mp hmem with h1 | h1
        · exact hc h1.symm
        · exact hnot h1

theorem splitDelim_none {delim : Byte} {s : Str} :
    splitDelim delim s = none ↔ delim ∉ s := by
  induction s with
  | nil => simp [splitDelim]
  | cons c cs ih =>
    unfold splitDelim
    by_cases hc : c = delim
    · simp [hc]
    · cases hs : splitDelim delim cs with
      | none =>
        have := ih.mp hs
        simp [hc, this, Ne.symm hc]
      | some lr =>
        have hne : ¬ (delim ∉ cs) := fun hn => by
          rw [ih.mpr hn] at hs; cases hs
        simp only [hc, if_false, List.mem_cons, not_or]
        constructor
        · intro h; cases h
        · intro h; exact absurd h.2 hne

theorem splitDelim_append {delim : Byte} (body rest : Str) (h : delim ∉ body) :
    splitDelim delim (body ++ delim :: rest) = some (body ++ [delim], rest) := by
  induction body with
  | nil => simp [splitDelim]
  | cons c cs ih =>
    have hc : c ≠ delim := fun e => h (by simp [e])
    have hcs : delim ∉ cs := fun e => h (by simp [e])
    simp [splitDelim, hc, ih hcs]

theorem index_append (body : Str) (c : Byte) (rest : Str) :
    index (body ++ c :: rest) (body.length : Int) = .ok c := by
  have h1 : (0 : Int) ≤ body.length ∧
      (body.length : Int) < ((body ++ c :: rest).length : Int) := by
    constructor
    · omega
    · simp only [List.length_append, List.length_cons]; omega
  have h2 : (body ++ c :: rest).get? body.length = some c := by
    rw [List.get?_eq_getElem?, List.getElem?_append_right (le_refl _)]
    simp
  unfold index
  rw [if_pos h1, Int.toNat_ofNat, h2]

theorem slice_prefix (body rest : Str) :
    slice (body ++ rest) 0 (body.length : Int) = .ok body := by
  have h1 : (0 : Int) ≤ 0 ∧ (0 : Int) ≤ (body.length : Int) ∧
      (body.length : Int) ≤ ((body ++ rest).length : Int) := by
    refine ⟨le_refl _, by omega, ?_⟩
    simp only [List.length_append]; omega
  simp only [slice, h1, and_self, if_true, Int.toNat_ofNat, Int.toNat_zero, List.drop_zero]
  simp

/-- The line source on a line that ends in a carriage return and a newline. -/
theorem stripLine_crlf (body : Str) :
    stripLine (body ++ [cr, nl], none) = .ok (body, none) := by
  have hlen : ((body ++ [cr, nl]).length : Int) - 2 = (body.length : Int) := by
    simp only [List.length_append, List.length_cons, List.length_nil]; omega
  simp only [stripLine, hlen, index_append, slice_prefix, if_true]

/-- The line source on a line that ends in a newline not preceded by a carriage
return. -/
theorem stripLine_lf (body : Str) (c : Byte) (hc : c ≠ cr) :
    stripLine (body ++ [c, nl], none) = .ok (body ++ [c], none) := by
  have hlen : ((body ++ [c, nl]).length : Int) - 2 = (body.length : Int) := by
    simp only [List.length_append, List.length_cons, List.length_nil]; omega
  have hlen1 : ((body ++ [c, nl]).length : Int) - 1 = ((body ++ [c]).length : Int) := by
    simp only [List.length_append, List.length_cons, List.length_nil]; omega
  have happ : body ++ [c, nl] = (body ++ [c]) ++ [nl] := by simp
  simp only [stripLine, hlen, index_append, hc, if_false]
  rw [hlen1, happ, slice_prefix]

theorem stripLine_body (body : Str) (h : body ≠ []) :
    stripLine (body ++ [nl], none) = .ok (dropCR body, none) := by
  rcases List.eq_nil_or_concat body with h0 | ⟨pre, c, rfl⟩
  · exact absurd h0 h
  · rw [List.concat_eq_append]
    have happ : pre ++ [c] ++ [nl] = pre ++ [c, nl] := by simp
    rw [happ]
    by_cases hc : c = cr
    · subst hc
      rw [stripLine_crlf]
      simp [dropCR]
    · rw [stripLine_lf pre c hc]
      simp [dropCR, hc]

theorem nextLine_line (body rest : Str) (e : Err) (h : body ≠ []) (hnl : nl ∉ body) :
    nextLine ⟨body ++ nl :: rest, e⟩ = (.ok (dropCR body, none), ⟨rest, e⟩) := by
  simp only [nextLine, ReadString, splitDelim_append body rest hnl, stripLine_body body h]

theorem nextLine_tail (tail : Str) (e : Err) (h : nl ∉ tail) :
    nextLine ⟨tail, e⟩ = (.ok ([], some e), ⟨[], e⟩) := by
  simp only [nextLine, ReadString, splitDelim_none.mpr h, stripLine]

theorem nextLine_split (body rest : Str) (e : Err) (hnl : nl ∉ body) :
    nextLine ⟨body ++ nl :: rest, e⟩ = (stripLine (body ++ [nl], none), ⟨rest, e⟩) := by
  simp only [nextLine, ReadString, splitDelim_append body rest hnl]

theorem pull_ignores_tail (bodies : List Str) (tail : Str) (e : Err) (n : Nat)
    (hb : ∀ x ∈ bodies, nl ∉ x) (ht : nl ∉ tail) :
    pull n ⟨(bodies.map (fun x => x ++ [nl])).flatten ++ tail, e⟩ =
      pull n ⟨(bodies.map (fun x => x ++ [nl])).flatten, e⟩ := by
  induction bodies generalizing n with
  | nil =>
    cases n with
    | zero => rfl
    | succ m =>
      simp only [List.map_nil, List.flatten_nil, List.nil_append, pull, nextLine_tail tail e ht,
        nextLine_tail [] e (List.not_mem_nil _)]
  | cons x xs ih =>
    cases n with
    | zero => rfl
    | succ m =>
      have hx := hb x (List.mem_cons_self _ _)
      have hxs : ∀ y ∈ xs, nl ∉ y := fun y hy => hb y (List.mem_cons_of_mem _ hy)
      have h1 : ((x :: xs).map (fun x => x ++ [nl])).flatten ++ tail =
          x ++ nl :: ((xs.map (fun x => x ++ [nl])).flatten ++ tail) := by simp
      have h2 : ((x :: xs).map (fun x => x ++ [nl])).flatten =
          x ++ nl :: (xs.map (fun x => x ++ [nl])).flatten := by simp
      rw [h1, h2]
      simp only [pull, nextLine_split x _ e hx]
      rcases hstrip : stripLine (x ++ [nl], none) with p | ⟨s, _ | e1⟩
      · rfl
      · simp only [ih m hxs]
      · rfl
/-! ## The command: lemmas -/

theorem read_trace {G : Type} (env : Env G) (e p f : Str) (g : G) :
    ∀ ev ∈ (read env e p f g).1, ev.onInput f := by
  intro ev hev
  unfold read at hev
  split at hev
  · simp only [List.mem_singleton] at hev
    exact Or.inr (Or.inl hev)
  · split at hev
    · simp only [List.mem_singleton] at hev
      exact Or.inl hev
    · split at hev <;>
        simp only [List.mem_cons, List.mem_singleton, List.not_mem_nil, or_false] at hev <;>
        (unfold Event.onInput; tauto)

theorem read_parsed_of_ok {G : Type} (env : Env G) (e p f : Str) (g g' : G)
    (h : (read env e p f g).2 = .ret (g', none)) :
    (read env e p f g).1.filterMap parsedInput = [f] := by
  unfold read at h ⊢
  split
  · rfl
  · rename_i hf
    simp only [hf, if_false] at h
    split
    · rename_i err hopen
      simp [hopen] at h
    · rename_i fi hopen
      simp only [hopen] at h
      split
      · rename_i hnr
        simp [hnr] at h
      · rfl

theorem readAll_trace {G : Type} (env : Env G) (e p : Str) (names : List Str) (g : G) :
    ∀ ev ∈ (readAll env e p names g).1, ∃ f ∈ names, ev.onInput f := by
  induction names generalizing g with
  | nil => intro ev hev; simp [readAll] at hev
  | cons f rest ih =>
    intro ev hev
    have hr := read_trace env e p f g
    unfold readAll at hev
    split at hev
    · rename_i tr q heq
      exact ⟨f, List.mem_cons_self _ _, hr ev (by rw [heq]; exact hev)⟩
    · rename_i tr heq
      exact ⟨f, List.mem_cons_self _ _, hr ev (by rw [heq]; exact hev)⟩
    · rename_i tr g1 err heq
      exact ⟨f, List.mem_cons_self _ _, hr ev (by rw [heq]; exact hev)⟩
    · rename_i tr g1 heq
      rcases List.mem_append.mp hev with h | h
      · exact ⟨f, List.mem_cons_self _ _, hr ev (by rw [heq]; exact h)⟩
      · obtain ⟨f', hf', hon⟩ := ih g1 ev h
        exact ⟨f', List.mem_cons_of_mem _ hf', hon⟩

theorem readAll_cons_ok {G : Type} (env : Env G) (e p f : Str) (rest : List Str) (g g1 : G)
    (t1 : List Event) (h : read env e p f g = (t1, .ret (g1, none))) :
    readAll env e p (f :: rest) g =
      (t1 ++ (readAll env e p rest g1).1, (readAll env e p rest g1).2) := by
  simp only [readAll, h]

theorem readAll_cons_err {G : Type} (env : Env G) (e p f : Str) (rest : List Str) (g g1 : G)
    (t1 : List Event) (err : Err) (h : read env e p f g = (t1, .ret (g1, some err))) :
    readAll env e p (f :: rest) g =
      (t1, .ret (.error (.wrap err "Read from %q failed" [f]))) := by
  simp only [readAll, h]

theorem readAll_append {G : Type} (env : Env G) (e p : Str) (pre rest : List Str) (g0 g : G)
    (tr : List Event) (h : readAll env e p pre g0 = (tr, .ret (.ok g))) :
    readAll env e p (pre ++ rest) g0 =
      (tr ++ (readAll env e p rest g).1, (readAll env e p rest g).2) := by
  induction pre generalizing g0 tr with
  | nil =>
    simp only [readAll, Prod.mk.injEq, Outcome.ret.injEq, Except.ok.injEq] at h
    obtain ⟨rfl, rfl⟩ := h
    simp
  | cons f fs ih =>
    simp only [List.cons_append]
    unfold readAll at h
    split at h
    · simp at h
    · simp at h
    · simp at h
    · rename_i t1 g1 heq
      rw [readAll_cons_ok env e p f (fs ++ rest) g0 g1 t1 heq]
      simp only [Prod.mk.injEq] at h
      obtain ⟨h1, h2⟩ := h
      have := ih g1 (readAll env e p fs g1).1 (by rw [← h2])
      rw [this, ← h1]
      simp

theorem readAll_parsed_of_ok {G : Type} (env : Env G) (e p : Str) (names : List Str) (g0 g : G)
    (tr : List Event) (h : readAll env e p names g0 = (tr, .ret (.ok g))) :
    tr.filterMap parsedInput = names := by
  induction names generalizing g0 tr with
  | nil =>
    simp only [readAll, Prod.mk.injEq] at h
    rw [← h.1]; rfl
  | cons f fs ih =>
    unfold readAll at h
    split at h
    · simp at h
    · simp at h
    · simp at h
    · rename_i t1 g1 heq
      simp only [Prod.mk.injEq] at h
      obtain ⟨h1, h2⟩ := h
      have h3 := ih g1 (readAll env e p fs g1).1 (by rw [← h2])
      have h4 := read_parsed_of_ok env e p f g0 g1 (by rw [heq])
      rw [heq] at h4
      rw [← h1, List.filterMap_append, h3, h4]
      rfl

theorem onInput_quiet {ev : Event} {f : Str} (h : ev.onInput f) :
    ev ≠ .newGraph ∧ ev ≠ .topSort ∧ ev ≠ .depthFirst ∧ ∀ s, ev ≠ .write s := by
  rcases h with h | h | h <;> subst h <;> simp

theorem stdout_append (a b : List Event) : stdout (a ++ b) = stdout a ++ stdout b := by
  induction a with
  | nil => rfl
  | cons ev tr ih => cases ev <;> simp [stdout, ih]

theorem stdout_quiet (tr : List Event) (h : ∀ ev ∈ tr, ∀ s, ev ≠ .write s) : stdout tr = [] := by
  induction tr with
  | nil => rfl
  | cons ev tr ih =>
    have h1 := h ev (List.mem_cons_self _ _)
    have h2 := ih (fun x hx => h x (List.mem_cons_of_mem _ hx))
    cases ev <;> simp_all [stdout]

theorem written_quiet (tr : List Event) (h : ∀ ev ∈ tr, ∀ s, ev ≠ .write s) :
    tr.filterMap written = [] := by
  induction tr with
  | nil => rfl
  | cons ev tr ih =>
    have h1 := h ev (List.mem_cons_self _ _)
    have h2 := ih (fun x hx => h x (List.mem_cons_of_mem _ hx))
    cases ev <;> simp_all [written, List.filterMap_cons]

theorem stdout_writes (results : List Str) :
    stdout (results.map (fun r => Event.write (r ++ [nl]))) =
      (results.map (fun r => r ++ [nl])).flatten := by
  induction results with
  | nil => rfl
  | cons r rs ih => simp [stdout, ih]

theorem written_writes (results : List Str) :
    (results.map (fun r => Event.write (r ++ [nl]))).filterMap written =
      results.map (fun r => r ++ [nl]) := by
  induction results with
  | nil => rfl
  | cons r rs ih => simp [written, List.filterMap_cons, ih]

theorem readAll_quiet {G : Type} (env : Env G) (e p : Str) (names : List Str) (g : G) :
    ∀ ev ∈ (readAll env e p names g).1,
      ev ≠ .newGraph ∧ ev ≠ .topSort ∧ ev ≠ .depthFirst ∧ ∀ s, ev ≠ .write s := by
  intro ev hev
  obtain ⟨f, -, hon⟩ := readAll_trace env e p names g ev hev
  exact onInput_quiet hon

theorem printed_mem {r : Outcome (List Str × Option Err)} {ev : Event}
    (h : ev ∈ printed r) : ∃ s, ev = .write s := by
  unfold printed at h
  split at h
  · obtain ⟨a, -, rfl⟩ := List.mem_map.mp h
    exact ⟨_, rfl⟩
  · simp at h

theorem classify_trace {G : Type} (lib : GraphLib G) (t : Bool) (g : G) :
    (classify lib t g).trace =
      (if t then Event.topSort :: printed (lib.TopSort g)
       else Event.depthFirst :: printed (lib.DepthFirst g)) := by
  unfold classify
  cases t
  · simp only [Bool.false_eq_true, if_false]
    rcases hd : lib.DepthFirst g with ⟨results, _ | err⟩ | q | _ <;> simp [printed]
  · simp only [if_true]
    rcases hd : lib.TopSort g with ⟨results, _ | err⟩ | q | _ <;> simp [printed]

theorem classify_result {G : Type} (lib : GraphLib G) (t : Bool) (g : G) :
    (classify lib t g).result =
      (match (if t then lib.TopSort g else lib.DepthFirst g) with
       | .crash q => .crash q
       | .noReturn => .noReturn
       | .ret (_, some err) =>
         .ret (some (.wrap err (if t then "Top Sort classifier" else "Depth-First classifier") []))
       | .ret (_, none) => .ret none) := by
  unfold classify
  cases t
  · simp only [Bool.false_eq_true, if_false]
    rcases hd : lib.DepthFirst g with ⟨results, _ | err⟩ | q | _ <;> simp
  · simp only [if_true]
    rcases hd : lib.TopSort g with ⟨results, _ | err⟩ | q | _ <;> simp

theorem RunE_of_read {G : Type} (env : Env G) (args : List Str) (p e : Str) (t : Bool)
    (names : List Str) (tr : List Event) (g : G)
    (hf : readFlags env = .ok (p, e, t)) (hn : filesNames env.abs args = .ok names)
    (hr : readAll env e p names env.lib.NewGraph = (tr, .ret (.ok g))) :
    RunE env args =
      ⟨.newGraph :: tr ++ (classify env.lib t g).trace, (classify env.lib t g).result⟩ := by
  simp only [RunE, hf, hn, hr]

/-! ## The list of inputs -/

theorem collectNames_ok (abs : Str → Str × Option Err) (rest seen names res : List Str)
    (hseen : ∀ x, x ∈ seen ↔ x ∈ names)
    (h : collectNames abs rest seen names = .ok res) :
    ∃ out, res = names ++ out ∧ out.Nodup ∧ ∀ x ∈ out, x ∉ names := by
  induction rest generalizing seen names with
  | nil =>
    simp only [collectNames, Except.ok.injEq] at h
    exact ⟨[], by simp [h], List.nodup_nil, by simp⟩
  | cons f rest ih =>
    unfold collectNames at h
    split at h
    · cases h
    · rename_i f1 hscr
      by_cases hmem : f1 ∈ seen
      · rw [if_pos hmem] at h
        exact ih seen names hseen h
      · rw [if_neg hmem] at h
        have hseen1 : ∀ x, x ∈ f1 :: seen ↔ x ∈ names ++ [f1] := by
          intro x
          simp only [List.mem_cons, List.mem_append, List.mem_singleton, hseen x]
          tauto
        obtain ⟨out, hres, hnd, hout⟩ := ih (f1 :: seen) (names ++ [f1]) hseen1 h
        refine ⟨f1 :: out, by simp [hres], ?_, ?_⟩
        · refine List.nodup_cons.mpr ⟨fun hin => ?_, hnd⟩
          exact hout f1 hin (by simp)
        · intro x hx
          rcases List.mem_cons.mp hx with h1 | h1
          · subst h1
            exact fun hn => hmem ((hseen _).mpr hn)
          · exact fun hn => hout x h1 (List.mem_append_left _ hn)

theorem collectNames_abs_ok (abs : Str → Str × Option Err) (rest seen names res : List Str)
    (h : collectNames abs rest seen names = .ok res) :
    ∀ f ∈ rest, f ≠ dash → (abs f).2 = none := by
  induction rest generalizing seen names with
  | nil => intro f hf; cases hf
  | cons f0 rest ih =>
    unfold collectNames at h
    split at h
    · cases h
    · rename_i f1 hscr
      have htail : ∀ f ∈ rest, f ≠ dash → (abs f).2 = none := by
        by_cases hmem : f1 ∈ seen
        · rw [if_pos hmem] at h
          exact ih seen names h
        · rw [if_neg hmem] at h
          exact ih (f1 :: seen) (names ++ [f1]) h
      intro f hf hd
      rcases List.mem_cons.mp hf with h1 | h1
      · subst h1
        rw [if_pos hd] at hscr
        rw [hscr]
      · exact htail f h1 hd

theorem filesNames_nodup (abs : Str → Str × Option Err) (args names : List Str)
    (h : filesNames abs args = .ok names) : names.Nodup := by
  unfold filesNames at h
  split at h
  · simp only [Except.ok.injEq] at h
    subst h
    simp
  · obtain ⟨out, hres, hnd, -⟩ := collectNames_ok abs args [] [] names (by simp) h
    simpa [hres] using hnd

theorem collectNames_spec (abs : Str → Str × Option Err) (rest seen names : List Str)
    (habs : ∀ f ∈ rest, f ≠ dash → (abs f).2 = none)
    (hseen : ∀ x, x ∈ seen ↔ x ∈ names) :
    ∃ out, collectNames abs rest seen names = .ok (names ++ out) ∧
      (∀ x, x ∈ out ↔ x ∈ rest.map (resolved abs) ∧ x ∉ names) ∧
      out.Pairwise (fun x y =>
        firstIndex x (rest.map (resolved abs)) < firstIndex y (rest.map (resolved abs))) := by
  induction rest generalizing seen names with
  | nil => exact ⟨[], by simp [collectNames], by simp, List.Pairwise.nil⟩
  | cons f rest ih =>
    have habs1 : ∀ f1 ∈ rest, f1 ≠ dash → (abs f1).2 = none :=
      fun f1 h1 => habs f1 (List.mem_cons_of_mem _ h1)
    have hscr : (if f ≠ dash then abs f else (f, none)) = (resolved abs f, none) := by
      unfold resolved
      by_cases hd : f ≠ dash
      · have := habs f (List.mem_cons_self _ _) hd
        rw [if_pos hd, if_pos hd, ← this]
      · rw [if_neg hd, if_neg hd]
    simp only [List.map_cons]
    by_cases hmem : resolved abs f ∈ seen
    · obtain ⟨out, hres, hout, hpw⟩ := ih seen names habs1 hseen
      have hnames : resolved abs f ∈ names := (hseen _).mp hmem
      refine ⟨out, ?_, ?_, ?_⟩
      · simp only [collectNames, hscr, if_pos hmem, hres]
      · intro x
        rw [hout x]
        simp only [List.mem_cons]
        constructor
        · rintro ⟨h1, h2⟩; exact ⟨Or.inr h1, h2⟩
        · rintro ⟨h1 | h1, h2⟩
          · subst h1; exact absurd hnames h2
          · exact ⟨h1, h2⟩
      · refine hpw.imp_of_mem ?_
        intro a b ha hb hab
        have ha1 : resolved abs f ≠ a := fun h1 => ((hout a).mp ha).2 (h1 ▸ hnames)
        have hb1 : resolved abs f ≠ b := fun h1 => ((hout b).mp hb).2 (h1 ▸ hnames)
        simp only [firstIndex, if_neg ha1, if_neg hb1]
        exact Nat.succ_lt_succ hab
    · have hseen1 : ∀ x, x ∈ resolved abs f :: seen ↔ x ∈ names ++ [resolved abs f] := by
        intro x
        simp only [List.mem_cons, List.mem_append, List.mem_singleton, hseen x]
        tauto
      obtain ⟨out, hres, hout, hpw⟩ :=
        ih (resolved abs f :: seen) (names ++ [resolved abs f]) habs1 hseen1
      have hnames : resolved abs f ∉ names := fun h1 => hmem ((hseen _).mpr h1)
      refine ⟨resolved abs f :: out, ?_, ?_, ?_⟩
      · simp only [collectNames, hscr, if_neg hmem, hres]
        simp
      · intro x
        constructor
        · intro hx
          rcases List.mem_cons.mp hx with h1 | h1
          · subst h1; exact ⟨List.mem_cons_self _ _, hnames⟩
          · have := (hout x).mp h1
            exact ⟨List.mem_cons_of_mem _ this.1, fun hn => this.2 (List.mem_append_left _ hn)⟩
        · rintro ⟨h1, h2⟩
          by_cases hx : x = resolved abs f
          · subst hx; exact List.mem_cons_self _ _
          · rcases List.mem_cons.mp h1 with h3 | h3
            · exact absurd h3 hx
            · refine List.mem_cons_of_mem _ ((hout x).mpr ⟨h3, fun hn => ?_⟩)
              rcases List.mem_append.mp hn with h4 | h4
              · exact h2 h4
              · exact hx (List.mem_singleton.mp h4)
      · refine List.pairwise_cons.mpr ⟨?_, ?_⟩
        · intro b hb
          have hb1 : resolved abs f ≠ b := fun h1 => by
            have := ((hout b).mp hb).2
            exact this (by simp [h1])
          simp only [firstIndex, if_neg hb1, if_true]
          exact Nat.succ_pos _
        · refine hpw.imp_of_mem ?_
          intro a b ha hb hab
          have ha1 : resolved abs f ≠ a := fun h1 => by
            have := ((hout a).mp ha).2
            exact this (by simp [h1])
          have hb1 : resolved abs f ≠ b := fun h1 => by
            have := ((hout b).mp hb).2
            exact this (by simp [h1])
          simp only [firstIndex, if_neg ha1, if_neg hb1]
          exact Nat.succ_lt_succ hab

theorem readAll_count {G : Type} (env : Env G) (e p f : Str) (names : List Str) (g : G)
    (hnd : names.Nodup) :
    (readAll env e p names g).1.count (.parseLines f) ≤ 1 ∧
    (readAll env e p names g).1.count (.openFile f) ≤ 1 := by
  induction names generalizing g with
  | nil => simp [readAll]
  | cons f0 rest ih =>
    have hnd1 := List.nodup_cons.mp hnd
    have hread : (read env e p f0 g).1.count (.parseLines f) ≤ 1 ∧
        (read env e p f0 g).1.count (.openFile f) ≤ 1 := by
      unfold read
      split
      · simp [List.count_cons]; split <;> simp
      · split
        · simp [List.count_cons]; split <;> simp
        · split <;> simp [List.count_cons] <;> split <;> simp
    unfold readAll
    split
    · rename_i tr q heq
      rw [heq] at hread; exact hread
    · rename_i tr heq
      rw [heq] at hread; exact hread
    · rename_i tr g1 err heq
      rw [heq] at hread; exact hread
    · rename_i tr g1 heq
      rw [heq] at hread
      by_cases hff : f0 = f
      · subst hff
        have hz : ∀ ev ∈ (readAll env e p rest g1).1,
            ev ≠ .parseLines f0 ∧ ev ≠ .openFile f0 := by
          intro ev hev
          obtain ⟨f1, hf1, hon⟩ := readAll_trace env e p rest g1 ev hev
          have hne : f1 ≠ f0 := fun h => hnd1.1 (h ▸ hf1)
          rcases hon with h | h | h <;> subst h
          · exact ⟨by simp, fun h => hne (by injection h)⟩
          · exact ⟨fun h => hne (by injection h), by simp⟩
          · exact ⟨by simp, by simp⟩
        simp only [List.count_append]
        rw [List.count_eq_zero.mpr (fun hm => (hz _ hm).1 rfl),
          List.count_eq_zero.mpr (fun hm => (hz _ hm).2 rfl)]
        exact hread
      · have hz : ∀ ev ∈ tr, ev ≠ .parseLines f ∧ ev ≠ .openFile f := by
          intro ev hev
          have hon := read_trace env e p f0 g ev (by rw [heq]; exact hev)
          rcases hon with h | h | h <;> subst h
          · exact ⟨by simp, fun h => hff (by injection h)⟩
          · exact ⟨fun h => hff (by injection h), by simp⟩
          · exact ⟨by simp, by simp⟩
        simp only [List.count_append]
        rw [List.count_eq_zero.mpr (fun hm => (hz _ hm).1 rfl),
          List.count_eq_zero.mpr (fun hm => (hz _ hm).2 rfl)]
        simpa using ih g1 hnd1.2

theorem classify_no_input {G : Type} (lib : GraphLib G) (t : Bool) (g : G) (f : Str) :
    (classify lib t g).trace.count (.parseLines f) = 0 ∧
    (classify lib t g).trace.count (.openFile f) = 0 := by
  have hmem : ∀ ev ∈ (classify lib t g).trace, ev ≠ .parseLines f ∧ ev ≠ .openFile f := by
    intro ev hev
    rw [classify_trace] at hev
    cases t
    · simp only [Bool.false_eq_true, if_false] at hev
      rcases List.mem_cons.mp hev with h | h
      · subst h; simp
      · obtain ⟨s, rfl⟩ := printed_mem h; simp
    · simp only [if_true] at hev
      rcases List.mem_cons.mp hev with h | h
      · subst h; simp
      · obtain ⟨s, rfl⟩ := printed_mem h; simp
  exact ⟨List.count_eq_zero.mpr (fun h => (hmem _ h).1 rfl),
    List.count_eq_zero.mpr (fun h => (hmem _ h).2 rfl)⟩

/-! ## The topological classifier: lemmas -/

theorem firstIndex_lt_length {x : Str} {l : List Str} (h : x ∈ l) :
    firstIndex x l < l.length := by
  induction l with
  | nil => cases h
  | cons y ys ih =>
    by_cases hy : y = x
    · simp [firstIndex, hy]
    · have hx : x ∈ ys := by
        rcases List.mem_cons.mp h with h1 | h1
        · exact absurd h1.symm hy
        · exact h1
      simp only [firstIndex, if_neg hy, List.length_cons]
      exact Nat.succ_lt_succ (ih hx)

theorem firstIndex_append_left {x : Str} {l : List Str} (r : List Str) (h : x ∈ l) :
    firstIndex x (l ++ r) = firstIndex x l := by
  induction l with
  | nil => cases h
  | cons y ys ih =>
    by_cases hy : y = x
    · simp [firstIndex, hy]
    · have hx : x ∈ ys := by
        rcases List.mem_cons.mp h with h1 | h1
        · exact absurd h1.symm hy
        · exact h1
      show (if y = x then 0 else firstIndex x (ys ++ r) + 1) =
        (if y = x then 0 else firstIndex x ys + 1)
      rw [if_neg hy, if_neg hy, ih hx]

theorem firstIndex_append_self {x : Str} {l : List Str} (h : x ∉ l) :
    firstIndex x (l ++ [x]) = l.length := by
  induction l with
  | nil => simp [firstIndex]
  | cons y ys ih =>
    have hy : y ≠ x := fun e => h (by simp [e])
    have hx : x ∉ ys := fun e => h (List.mem_cons_of_mem _ e)
    show (if y = x then 0 else firstIndex x (ys ++ [x]) + 1) = ys.length + 1
    rw [if_neg hy, ih hx]

theorem foldl_relax (ts : List Str) (hnd : ts.Nodup) (st : KahnState) :
    (ts.foldl relax st).result = st.result ∧
    (∀ x, (ts.foldl relax st).indeg x = if x ∈ ts then st.indeg x - 1 else st.indeg x) ∧
    (ts.foldl relax st).queue = st.queue ++ ts.filter (fun t => st.indeg t - 1 = 0) := by
  induction ts generalizing st with
  | nil => simp
  | cons t ts ih =>
    have hnd1 := List.nodup_cons.mp hnd
    obtain ⟨h1, h2, h3⟩ := ih hnd1.2 (relax st t)
    simp only [List.foldl_cons]
    refine ⟨by rw [h1]; rfl, ?_, ?_⟩
    · intro x
      rw [h2 x]
      by_cases hx : x ∈ ts
      · have hxt : x ≠ t := fun e => hnd1.1 (e ▸ hx)
        simp [hx, relax, hxt]
      · by_cases hxt : x = t
        · subst hxt
          simp [hx, relax]
        · simp [hx, relax, hxt]
    · rw [h3]
      have hcongr : ts.filter (fun u => (relax st t).indeg u - 1 = 0) =
          ts.filter (fun u => st.indeg u - 1 = 0) := by
        apply List.filter_congr
        intro u hu
        have hut : u ≠ t := fun e => hnd1.1 (e ▸ hu)
        simp [relax, hut]
      rw [hcongr]
      by_cases ht : st.indeg t - 1 = 0
      · simp [relax, ht, List.filter_cons]
      · simp [relax, ht, List.filter_cons]

theorem pending_append_aux (es : List (Str × Str)) (hnd : es.Nodup) (res : List Str)
    (n t : Str) (hn : n ∉ res) :
    ((es.filter (fun e => e.2 = t ∧ e.1 ∉ res ++ [n])).length : Int) =
      ((es.filter (fun e => e.2 = t ∧ e.1 ∉ res)).length : Int) -
        (if (n, t) ∈ es then 1 else 0) := by
  induction es with
  | nil => simp
  | cons e es ih =>
    have hnd1 := List.nodup_cons.mp hnd
    have ih1 := ih hnd1.2
    by_cases he : e = (n, t)
    · subst he
      have hnot : (n, t) ∉ es := hnd1.1
      rw [if_neg hnot] at ih1
      have h1 : ¬ ((n, t).2 = t ∧ (n, t).1 ∉ res ++ [n]) := by simp
      have h2 : ((n, t).2 = t ∧ (n, t).1 ∉ res) := ⟨rfl, hn⟩
      rw [List.filter_cons_of_neg (by simp), List.filter_cons_of_pos (by simpa using h2),
        ih1]
      simp
    · have hiff : (n, t) ∈ e :: es ↔ (n, t) ∈ es := by
        simp only [List.mem_cons]
        constructor
        · rintro (h | h)
          · exact absurd h.symm he
          · exact h
        · exact Or.inr
      have hpred : (e.2 = t ∧ e.1 ∉ res ++ [n]) ↔ (e.2 = t ∧ e.1 ∉ res) := by
        constructor
        · rintro ⟨h1, h2⟩
          exact ⟨h1, fun h => h2 (List.mem_append_left _ h)⟩
        · rintro ⟨h1, h2⟩
          refine ⟨h1, fun h => ?_⟩
          rcases List.mem_append.mp h with h3 | h3
          · exact h2 h3
          · apply he
            rw [List.mem_singleton] at h3
            exact Prod.ext h3 h1
      by_cases hp : e.2 = t ∧ e.1 ∉ res
      · rw [List.filter_cons_of_pos (by simpa using hpred.mpr hp),
          List.filter_cons_of_pos (by simpa using hp)]
        simp only [List.length_cons, Nat.cast_add, Nat.cast_one, ih1]
        by_cases hm : (n, t) ∈ es
        · rw [if_pos hm, if_pos (hiff.mpr hm)]; ring
        · rw [if_neg hm, if_neg (fun h => hm (hiff.mp h))]; ring
      · rw [List.filter_cons_of_neg (by simpa using fun h => hp (hpred.mp h)),
          List.filter_cons_of_neg (by simpa using hp), ih1]
        by_cases hm : (n, t) ∈ es
        · rw [if_pos hm, if_pos (hiff.mpr hm)]
        · rw [if_neg hm, if_neg (fun h => hm (hiff.mp h))]

theorem mem_outgoing {g : Graph} {n t : Str} : t ∈ g.outgoing n ↔ (n, t) ∈ g.edges := by
  unfold Graph.outgoing
  simp only [List.mem_map, List.mem_filter, decide_eq_true_eq]
  constructor
  · rintro ⟨e, ⟨he, h1⟩, h2⟩
    have : e = (n, t) := Prod.ext h1 h2
    exact this ▸ he
  · intro h
    exact ⟨(n, t), ⟨h, rfl⟩, rfl⟩

theorem outgoing_nodup {g : Graph} (hg : g.WF) (n : Str) : (g.outgoing n).Nodup := by
  unfold Graph.outgoing
  refine (List.Nodup.map_on ?_ (hg.edges_nodup.filter _))
  intro a ha b hb hab
  simp only [List.mem_filter, decide_eq_true_eq] at ha hb
  exact Prod.ext (ha.2.trans hb.2.symm) hab

theorem pending_nonneg (g : Graph) (res : List Str) (t : Str) : 0 ≤ pending g res t := by
  unfold pending
  exact Int.natCast_nonneg _

theorem pending_pos_of_edge {g : Graph} {res : List Str} {s t : Str}
    (he : (s, t) ∈ g.edges) (hs : s ∉ res) : 0 < pending g res t := by
  unfold pending
  have : (s, t) ∈ g.edges.filter (fun e => e.2 = t ∧ e.1 ∉ res) := by
    simp [List.mem_filter, he, hs]
  have := List.length_pos_of_mem this
  exact_mod_cast this

theorem pending_zero {g : Graph} {res : List Str} {t : Str} (h : pending g res t = 0)
    {s : Str} (he : (s, t) ∈ g.edges) : s ∈ res := by
  by_contra hs
  have := pending_pos_of_edge he hs
  omega

theorem pending_nil (g : Graph) (t : Str) : pending g [] t = g.inDegree t := by
  unfold pending Graph.inDegree
  simp

theorem kahnInit_inv (g : Graph) (hg : g.WF) : KahnInv g (kahnInit g) := by
  refine ⟨?_, ?_, ?_, ?_, ?_⟩
  · simpa [kahnInit] using hg.nodes_nodup.filter _
  · intro x hx
    simp only [kahnInit, List.nil_append, List.mem_filter] at hx
    exact hx.1
  · intro t
    simp [kahnInit, pending_nil]
  · intro x hx
    simp [kahnInit, List.mem_filter, hx]
  · intro e _ h
    simp [kahnInit] at h

theorem kahnStep_inv (g : Graph) (hg : g.WF) (st : KahnState) (n : Str) (q : List Str)
    (hq : st.queue = n :: q) (hinv : KahnInv g st) :
    KahnInv g (kahnStep g st n q) ∧
      (kahnStep g st n q).result = st.result ++ [n] := by
  obtain ⟨h1, h2, h3⟩ := foldl_relax (g.outgoing n) (outgoing_nodup hg n)
    { indeg := st.indeg, queue := q, result := st.result ++ [n] }
  have hres : (kahnStep g st n q).result = st.result ++ [n] := h1
  have hindeg : ∀ x, (kahnStep g st n q).indeg x =
      if x ∈ g.outgoing n then st.indeg x - 1 else st.indeg x := h2
  have hqueue : (kahnStep g st n q).queue =
      q ++ (g.outgoing n).filter (fun t => st.indeg t - 1 = 0) := h3
  have hnd := hinv.nodup
  rw [hq] at hnd
  have hnres : n ∉ st.result := by
    intro h
    exact (List.nodup_append.mp hnd).2.2 h (List.mem_cons_self _ _)
  have hold : ∀ x, x ∈ st.result ++ [n] ++ q ↔ x ∈ st.result ++ st.queue := by
    intro x
    rw [hq]
    simp
  have hnew : ∀ x, x ∈ (g.outgoing n).filter (fun t => st.indeg t - 1 = 0) ↔
      x ∈ g.outgoing n ∧ st.indeg x = 1 := by
    intro x
    simp only [List.mem_filter, decide_eq_true_eq]
    constructor
    · rintro ⟨h, h0⟩; exact ⟨h, by omega⟩
    · rintro ⟨h, h0⟩; exact ⟨h, by omega⟩
  have hout_pos : ∀ x, x ∈ g.outgoing n → 0 < st.indeg x := by
    intro x hx
    rw [hinv.indeg_eq x]
    exact pending_pos_of_edge (mem_outgoing.mp hx) hnres
  have hout_nodes : ∀ x, x ∈ g.outgoing n → x ∈ g.nodes := by
    intro x hx
    exact hg.dst_mem _ (mem_outgoing.mp hx)
  refine ⟨⟨?_, ?_, ?_, ?_, ?_⟩, hres⟩
  · rw [hres, hqueue]
    have hre : st.result ++ [n] ++ (q ++ (g.outgoing n).filter (fun t => st.indeg t - 1 = 0)) =
        (st.result ++ n :: q) ++ (g.outgoing n).filter (fun t => st.indeg t - 1 = 0) := by
      simp
    rw [hre]
    refine List.Nodup.append hnd ((outgoing_nodup hg n).filter _) ?_
    intro x hx1 hx2
    have hx3 := (hnew x).mp hx2
    have hx4 : x ∈ st.result ++ st.queue := by rw [hq]; exact hx1
    have := (hinv.ready x (hinv.mem_nodes x hx4)).mpr hx4
    omega
  · intro x hx
    rw [hres, hqueue, ← List.append_assoc] at hx
    rcases List.mem_append.mp hx with h | h
    · exact hinv.mem_nodes x ((hold x).mp h)
    · exact hout_nodes x ((hnew x).mp h).1
  · intro t
    rw [hindeg t, hres]
    unfold pending
    rw [pending_append_aux g.edges hg.edges_nodup st.result n t hnres]
    have := hinv.indeg_eq t
    unfold pending at this
    rw [this]
    by_cases ht : t ∈ g.outgoing n
    · rw [if_pos ht, if_pos (mem_outgoing.mp ht)]
    · rw [if_neg ht, if_neg (fun h => ht (mem_outgoing.mpr h))]
      simp
  · intro x hx
    rw [hindeg x, hres, hqueue, ← List.append_assoc, List.mem_append, hold x, hnew x]
    constructor
    · intro h
      by_cases hxo : x ∈ g.outgoing n
      · rw [if_pos hxo] at h
        exact Or.inr ⟨hxo, by omega⟩
      · rw [if_neg hxo] at h
        exact Or.inl ((hinv.ready x hx).mp h)
    · rintro (h | ⟨h, h0⟩)
      · have h0 := (hinv.ready x hx).mpr h
        by_cases hxo : x ∈ g.outgoing n
        · have := hout_pos x hxo
          omega
        · rw [if_neg hxo]; exact h0
      · rw [if_pos h]; omega
  · intro e he h2
    rw [hres] at h2 ⊢
    rcases List.mem_append.mp h2 with h | h
    · obtain ⟨h3, h4⟩ := hinv.ordered e he h
      refine ⟨List.mem_append_left _ h3, ?_⟩
      rw [firstIndex_append_left _ h3, firstIndex_append_left _ h]
      exact h4
    · rw [List.mem_singleton] at h
      have hn0 : st.indeg n = 0 := by
        have hmem : n ∈ st.result ++ st.queue := by rw [hq]; simp
        exact (hinv.ready n (hinv.mem_nodes n hmem)).mpr hmem
      rw [hinv.indeg_eq n] at hn0
      have hedge : (e.1, n) ∈ g.edges := by
        have : e = (e.1, n) := Prod.ext rfl h
        rw [← this]; exact he
      have h3 : e.1 ∈ st.result := pending_zero hn0 hedge
      refine ⟨List.mem_append_left _ h3, ?_⟩
      rw [firstIndex_append_left _ h3, h, firstIndex_append_self hnres]
      exact firstIndex_lt_length h3

theorem kahnLoop_inv (g : Graph) (hg : g.WF) (fuel : Nat) (st st1 : KahnState)
    (hinv : KahnInv g st) (h : kahnLoop g fuel st = some st1) :
    KahnInv g st1 ∧ st1.queue = [] := by
  induction fuel generalizing st with
  | zero =>
    obtain ⟨indeg, queue, result⟩ := st
    cases queue with
    | nil =>
      simp only [kahnLoop, Option.some.injEq] at h
      subst h
      exact ⟨hinv, rfl⟩
    | cons n q => simp [kahnLoop] at h
  | succ fuel ih =>
    obtain ⟨indeg, queue, result⟩ := st
    cases queue with
    | nil =>
      simp only [kahnLoop, Option.some.injEq] at h
      subst h
      exact ⟨hinv, rfl⟩
    | cons n q =>
      simp only [kahnLoop] at h
      exact ih _ (kahnStep_inv g hg _ n q rfl hinv).1 h

theorem kahnLoop_total (g : Graph) (hg : g.WF) (fuel : Nat) (st : KahnState)
    (hinv : KahnInv g st) (hfuel : g.nodes.length ≤ st.result.length + fuel) :
    ∃ st1, kahnLoop g fuel st = some st1 := by
  induction fuel generalizing st with
  | zero =>
    obtain ⟨indeg, queue, result⟩ := st
    cases queue with
    | nil => exact ⟨⟨indeg, [], result⟩, by simp [kahnLoop]⟩
    | cons n q =>
      exfalso
      have hsub : (result ++ n :: q) ⊆ g.nodes := fun x hx => hinv.mem_nodes x hx
      have hlen := (List.subperm_of_subset hinv.nodup hsub).length_le
      simp only [List.length_append, List.length_cons] at hlen
      simp only [Nat.add_zero] at hfuel
      omega
  | succ fuel ih =>
    obtain ⟨indeg, queue, result⟩ := st
    cases queue with
    | nil => exact ⟨⟨indeg, [], result⟩, by simp [kahnLoop]⟩
    | cons n q =>
      simp only [kahnLoop]
      obtain ⟨hinv1, hres1⟩ := kahnStep_inv g hg ⟨indeg, n :: q, result⟩ n q rfl hinv
      apply ih _ hinv1
      rw [hres1]
      simp only [List.length_append, List.length_cons, List.length_nil]
      simp only at hfuel
      omega

/-- The topological classifier returns within a budget of as many rounds as
there are nodes. -/
theorem TopSort_total (g : Graph) (hg : g.WF) (fuel : Nat) (hfuel : g.nodes.length ≤ fuel) :
    ∃ r, TopSort fuel g = .ret r := by
  obtain ⟨st1, h⟩ := kahnLoop_total g hg fuel (kahnInit g) (kahnInit_inv g hg)
    (by simp [kahnInit]; exact hfuel)
  unfold TopSort
  rw [h]
  simp only
  split
  · exact ⟨_, rfl⟩
  · exact ⟨_, rfl⟩

/-- A result of the topological classifier holds every node once, and the source
of every edge before its target. -/
theorem TopSort_sound (g : Graph) (hg : g.WF) (fuel : Nat) (res : List Str)
    (h : TopSort fuel g = .ret (res, none)) :
    res.Nodup ∧ (∀ x, x ∈ res ↔ x ∈ g.nodes) ∧
    ∀ s t, (s, t) ∈ g.edges → s ∈ res ∧ t ∈ res ∧ firstIndex s res < firstIndex t res := by
  unfold TopSort at h
  cases hk : kahnLoop g fuel (kahnInit g) with
  | none => simp [hk] at h
  | some st =>
    obtain ⟨hinv, hqe⟩ := kahnLoop_inv g hg fuel _ st (kahnInit_inv g hg) hk
    simp only [hk] at h
    by_cases hall : g.nodes.all (fun n => n ∈ st.result) = true
    · rw [if_pos hall] at h
      simp only [Outcome.ret.injEq, Prod.mk.injEq, and_true] at h
      subst h
      have hall1 : ∀ x ∈ g.nodes, x ∈ st.result := by
        simpa using hall
      have hnd : st.result.Nodup := (List.nodup_append.mp hinv.nodup).1
      refine ⟨hnd, fun x => ⟨fun hx => hinv.mem_nodes x (List.mem_append_left _ hx),
        hall1 x⟩, ?_⟩
      intro s t he
      have ht : t ∈ st.result := hall1 t (hg.dst_mem _ he)
      obtain ⟨h1, h2⟩ := hinv.ordered (s, t) he ht
      exact ⟨h1, ht, h2⟩
    · rw [if_neg hall] at h
      simp at h

theorem rank_of_chain {g : Graph} (rank : Str → Nat)
    (hrank : ∀ s t, (s, t) ∈ g.edges → rank s < rank t) {a b : Str}
    (h : Relation.TransGen (fun a b => (a, b) ∈ g.edges) a b) : rank a < rank b := by
  induction h with
  | single h1 => exact hrank _ _ h1
  | tail _ h2 ih => exact Nat.lt_trans ih (hrank _ _ h2)

/-- A graph on which the topological classifier succeeds has no cycle. -/
theorem acyclic_of_TopSort (g : Graph) (hg : g.WF) (fuel : Nat) (res : List Str)
    (h : TopSort fuel g = .ret (res, none)) : ¬ g.HasCycle := by
  rintro ⟨n, hn⟩
  have := rank_of_chain (fun x => firstIndex x res)
    (fun s t he => ((TopSort_sound g hg fuel res h).2.2 s t he).2.2) hn
  exact Nat.lt_irrefl _ this

/-- On a graph without cycle the topological classifier succeeds, within a
budget of as many rounds as there are nodes. -/
theorem TopSort_complete (g : Graph) (hg : g.WF) (fuel : Nat) (hfuel : g.nodes.length ≤ fuel)
    (hac : ¬ g.HasCycle) : ∃ res, TopSort fuel g = .ret (res, none) := by
  obtain ⟨st, hk⟩ := kahnLoop_total g hg fuel (kahnInit g) (kahnInit_inv g hg)
    (by simp [kahnInit]; exact hfuel)
  obtain ⟨hinv, hqe⟩ := kahnLoop_inv g hg fuel _ st (kahnInit_inv g hg) hk
  have hall : ∀ x ∈ g.nodes, x ∈ st.result := by
    by_contra hnot
    push_neg at hnot
    obtain ⟨x0, hx0, hx0r⟩ := hnot
    have hfin : Finite {x // x ∈ g.nodes} := (List.finite_toSet g.nodes).to_subtype
    let r : {x // x ∈ g.nodes} → {x // x ∈ g.nodes} → Prop :=
      fun a b => Relation.TransGen (fun a b => (a, b) ∈ g.edges) a.1 b.1
    have htrans : IsTrans _ r := ⟨fun a b c hab hbc => Relation.TransGen.trans hab hbc⟩
    have hirr : IsIrrefl _ r := ⟨fun a ha => hac ⟨a.1, ha⟩⟩
    have hwf : WellFounded r := Finite.wellFounded_of_trans_of_irrefl r
    obtain ⟨m, hm, hmin⟩ := hwf.has_min {a | a.1 ∉ st.result} ⟨⟨x0, hx0⟩, hx0r⟩
    have hm0 : st.indeg m.1 ≠ 0 := by
      intro h0
      have := (hinv.ready m.1 m.2).mp h0
      rw [hqe, List.append_nil] at this
      exact hm this
    have hpos : 0 < pending g st.result m.1 := by
      have h1 := hinv.indeg_eq m.1
      have h2 := pending_nonneg g st.result m.1
      omega
    have hex : ∃ e ∈ g.edges, e.2 = m.1 ∧ e.1 ∉ st.result := by
      unfold pending at hpos
      have hlen : 0 < (g.edges.filter (fun e => e.2 = m.1 ∧ e.1 ∉ st.result)).length := by
        exact_mod_cast hpos
      obtain ⟨e, he⟩ := List.exists_mem_of_length_pos hlen
      simp only [List.mem_filter, decide_eq_true_eq] at he
      exact ⟨e, he.1, he.2⟩
    obtain ⟨e, he, he2, he1⟩ := hex
    have hedge : (e.1, m.1) ∈ g.edges := by
      have : e = (e.1, m.1) := Prod.ext rfl he2
      rw [← this]; exact he
    exact hmin ⟨e.1, hg.src_mem e he⟩ he1 (Relation.TransGen.single hedge)
  refine ⟨st.result, ?_⟩
  unfold TopSort
  rw [hk]
  have : g.nodes.all (fun n => n ∈ st.result) = true := by simpa using hall
  simp only [this, if_true]
/-! ## The parser of the library: lemmas -/

theorem NewGraph_WF : NewGraph.WF :=
  ⟨List.nodup_nil, List.nodup_nil, by simp [NewGraph], by simp [NewGraph]⟩

theorem ensureNode_edges (g : Graph) (n : Str) : (g.ensureNode n).edges = g.edges := by
  unfold Graph.ensureNode
  split <;> rfl

theorem ensureNode_mem (g : Graph) (n : Str) : n ∈ (g.ensureNode n).nodes := by
  unfold Graph.ensureNode
  split
  · assumption
  · simp

theorem ensureNode_sub (g : Graph) (n : Str) {x : Str} (h : x ∈ g.nodes) :
    x ∈ (g.ensureNode n).nodes := by
  unfold Graph.ensureNode
  split
  · exact h
  · exact List.mem_append_left _ h

theorem ensureNode_WF {g : Graph} (hg : g.WF) (n : Str) : (g.ensureNode n).WF := by
  refine ⟨?_, ?_, ?_, ?_⟩
  · unfold Graph.ensureNode
    split
    · exact hg.nodes_nodup
    · rename_i hn
      exact List.Nodup.append hg.nodes_nodup (List.nodup_singleton n)
        (fun x hx hx1 => hn (by rw [List.mem_singleton] at hx1; exact hx1 ▸ hx))
  · rw [ensureNode_edges]; exact hg.edges_nodup
  · intro e he
    rw [ensureNode_edges] at he
    exact ensureNode_sub g n (hg.src_mem e he)
  · intro e he
    rw [ensureNode_edges] at he
    exact ensureNode_sub g n (hg.dst_mem e he)

theorem addEdge_mem (g : Graph) (s t : Str) : (s, t) ∈ (g.addEdge s t).edges := by
  unfold Graph.addEdge
  split
  · assumption
  · simp

theorem addEdge_sub (g : Graph) (s t : Str) {e : Str × Str} (h : e ∈ g.edges) :
    e ∈ (g.addEdge s t).edges := by
  have h1 : e ∈ ((g.ensureNode s).ensureNode t).edges := by
    rw [ensureNode_edges, ensureNode_edges]; exact h
  unfold Graph.addEdge
  split
  · exact h1
  · exact List.mem_append_left _ h1

theorem addEdge_WF {g : Graph} (hg : g.WF) (s t : Str) : (g.addEdge s t).WF := by
  have h1 : ((g.ensureNode s).ensureNode t).WF := ensureNode_WF (ensureNode_WF hg s) t
  have hs : s ∈ ((g.ensureNode s).ensureNode t).nodes :=
    ensureNode_sub _ t (ensureNode_mem g s)
  have ht : t ∈ ((g.ensureNode s).ensureNode t).nodes := ensureNode_mem _ t
  unfold Graph.addEdge
  split
  · exact h1
  · rename_i hnot
    refine ⟨h1.nodes_nodup, ?_, ?_, ?_⟩
    · exact List.Nodup.append h1.edges_nodup (List.nodup_singleton _)
        (fun x hx hx1 => hnot (by rw [List.mem_singleton] at hx1; exact hx1 ▸ hx))
    · intro e he
      rcases List.mem_append.mp he with h | h
      · exact h1.src_mem e h
      · rw [List.mem_singleton] at h; subst h; exact hs
    · intro e he
      rcases List.mem_append.mp he with h | h
      · exact h1.dst_mem e h
      · rw [List.mem_singleton] at h; subst h; exact ht

theorem parseToken_spec (edgeSep line tok : Str) (g : Graph) (hg : g.WF) :
    (parseToken edgeSep line tok g).1.WF ∧
    (∀ e ∈ g.edges, e ∈ (parseToken edgeSep line tok g).1.edges) ∧
    ((parseToken edgeSep line tok g).2 = none → ∀ s t, cutFirst edgeSep tok = some (s, t) →
      (s, t) ∈ (parseToken edgeSep line tok g).1.edges) := by
  unfold parseToken
  cases hc : cutFirst edgeSep tok with
  | none =>
    refine ⟨ensureNode_WF hg tok, fun e he => by simpa [ensureNode_edges] using he, ?_⟩
    intro _ s t h
    cases h
  | some st =>
    obtain ⟨s, t⟩ := st
    by_cases hempty : s = [] ∨ t = []
    · simp only [if_pos hempty]
      refine ⟨hg, fun e he => he, fun h => ?_⟩
      cases h
    · simp only [if_neg hempty]
      refine ⟨addEdge_WF hg s t, fun e he => addEdge_sub g s t he, ?_⟩
      intro _ s1 t1 h
      simp only [Option.some.injEq, Prod.mk.injEq] at h
      obtain ⟨rfl, rfl⟩ := h
      exact addEdge_mem g s t

theorem parseTokens_spec (edgeSep line : Str) (toks : List Str) (g : Graph) (hg : g.WF) :
    (parseTokens edgeSep line toks g).1.WF ∧
    (∀ e ∈ g.edges, e ∈ (parseTokens edgeSep line toks g).1.edges) ∧
    ((parseTokens edgeSep line toks g).2 = none → ∀ tok ∈ toks, ∀ s t,
      cutFirst edgeSep tok = some (s, t) →
      (s, t) ∈ (parseTokens edgeSep line toks g).1.edges) := by
  induction toks generalizing g with
  | nil => exact ⟨hg, fun e he => he, fun _ tok htok => by cases htok⟩
  | cons tok toks ih =>
    obtain ⟨h1, h2, h3⟩ := parseToken_spec edgeSep line tok g hg
    unfold parseTokens
    rcases hp : parseToken edgeSep line tok g with ⟨g1, _ | err⟩
    · rw [hp] at h1 h2 h3
      obtain ⟨i1, i2, i3⟩ := ih g1 h1
      refine ⟨i1, fun e he => i2 e (h2 e he), ?_⟩
      intro hnone tok1 htok1 s t hcut
      rcases List.mem_cons.mp htok1 with h | h
      · subst h
        exact i2 _ (h3 rfl s t hcut)
      · exact i3 hnone tok1 h s t hcut
    · rw [hp] at h1 h2
      refine ⟨h1, h2, fun h => ?_⟩
      cases h

theorem parseLoop_spec (edgeSep pairSep : Str) (fuel : Nat) (b : Reader) (g g1 : Graph)
    (err : Option Err) (hg : g.WF)
    (h : parseLoop edgeSep pairSep nextLine fuel b g = .ret (g1, err)) :
    g1.WF ∧ (∀ e ∈ g.edges, e ∈ g1.edges) ∧
    (err = none → ∀ s t, TokenEdge edgeSep pairSep b s t → (s, t) ∈ g1.edges) := by
  induction fuel generalizing b g with
  | zero => simp [parseLoop] at h
  | succ fuel ih =>
    unfold parseLoop at h
    rcases hnext : nextLine b with ⟨_ | ⟨line, _ | e1⟩, b1⟩
    · simp [hnext] at h
    · simp only [hnext] at h
      obtain ⟨p1, p2, p3⟩ := parseTokens_spec edgeSep line (pairTokens pairSep line) g hg
      unfold parseLine at h
      rcases hp : parseTokens edgeSep line (pairTokens pairSep line) g with ⟨g2, _ | e2⟩
      · rw [hp] at p1 p2 p3 h
        simp only at h
        obtain ⟨i1, i2, i3⟩ := ih b1 g2 p1 h
        refine ⟨i1, fun e he => i2 e (p2 e he), ?_⟩
        intro hnone s t ⟨m, line1, tok, hmem, htok, hcut⟩
        cases m with
        | zero => simp [pull] at hmem
        | succ m =>
          simp only [pull, hnext] at hmem
          rcases List.mem_cons.mp hmem with hm | hm
          · simp only [Except.ok.injEq, Prod.mk.injEq, and_true] at hm
            subst hm
            exact i2 _ (p3 rfl tok htok s t hcut)
          · exact i3 hnone s t ⟨m, line1, tok, hm, htok, hcut⟩
      · rw [hp] at p1 p2 h
        simp only [Outcome.ret.injEq, Prod.mk.injEq] at h
        obtain ⟨rfl, rfl⟩ := h
        refine ⟨p1, p2, fun hn => ?_⟩
        cases hn
    · simp only [hnext] at h
      have hg1 : g1 = g := by
        by_cases he : e1 = .EOF
        · simp [he] at h; exact h.1.symm
        · simp [he] at h; exact h.1.symm
      subst hg1
      refine ⟨hg, fun e he => he, ?_⟩
      intro _ s t ⟨m, line1, tok, hmem, _, _⟩
      cases m with
      | zero => simp [pull] at hmem
      | succ m => simp [pull, hnext] at hmem

theorem read_spec (fuel : Nat) (env : Env Graph) (hlib : env.lib = specLib fuel)
    (e p f : Str) (g g1 : Graph) (tr : List Event) (hg : g.WF)
    (h : read env e p f g = (tr, .ret (g1, none))) :
    g1.WF ∧ (∀ x ∈ g.edges, x ∈ g1.edges) ∧
    ∀ b, inputOf env f = some b → ∀ s t, TokenEdge e p b s t → (s, t) ∈ g1.edges := by
  have hparse : ∀ b, env.lib.ParseLines g e p (lineSource b) =
      parseLoop e p nextLine fuel b g := by
    intro b
    rw [hlib]
    rfl
  unfold read at h
  by_cases hf : f = dash
  · rw [if_pos hf, hparse] at h
    simp only [Prod.mk.injEq] at h
    obtain ⟨h1, h2, h3⟩ := parseLoop_spec e p fuel env.stdin g g1 none hg h.2
    refine ⟨h1, h2, ?_⟩
    intro b hb
    simp only [inputOf, if_pos hf, Option.some.injEq] at hb
    subst hb
    exact h3 rfl
  · rw [if_neg hf] at h
    cases ho : env.openFile f with
    | error err => simp [ho] at h
    | ok fi =>
      simp only [ho, hparse] at h
      have hret : parseLoop e p nextLine fuel fi g = .ret (g1, none) := by
        cases hp : parseLoop e p nextLine fuel fi g with
        | noReturn => simp [hp] at h
        | crash q => simp [hp] at h
        | ret r =>
          simp only [hp, Prod.mk.injEq, Outcome.ret.injEq] at h
          rw [h.2]
      obtain ⟨h1, h2, h3⟩ := parseLoop_spec e p fuel fi g g1 none hg hret
      refine ⟨h1, h2, ?_⟩
      intro b hb
      simp only [inputOf, if_neg hf, ho, Option.some.injEq] at hb
      subst hb
      exact h3 rfl

theorem readAll_spec (fuel : Nat) (env : Env Graph) (hlib : env.lib = specLib fuel)
    (e p : Str) (names : List Str) (g0 g : Graph) (tr : List Event) (hg : g0.WF)
    (h : readAll env e p names g0 = (tr, .ret (.ok g))) :
    g.WF ∧ (∀ x ∈ g0.edges, x ∈ g.edges) ∧
    ∀ f ∈ names, ∀ b, inputOf env f = some b →
      ∀ s t, TokenEdge e p b s t → (s, t) ∈ g.edges := by
  induction names generalizing g0 tr with
  | nil =>
    simp only [readAll, Prod.mk.injEq, Outcome.ret.injEq, Except.ok.injEq] at h
    obtain ⟨-, rfl⟩ := h
    exact ⟨hg, fun x hx => hx, fun f hf => by cases hf⟩
  | cons f rest ih =>
    unfold readAll at h
    split at h
    · simp at h
    · simp at h
    · simp at h
    · rename_i t1 g1 heq
      simp only [Prod.mk.injEq] at h
      obtain ⟨r1, r2, r3⟩ := read_spec fuel env hlib e p f g0 g1 t1 hg heq
      obtain ⟨i1, i2, i3⟩ := ih g1 (readAll env e p rest g1).1 r1 (by rw [← h.2])
      refine ⟨i1, fun x hx => i2 x (r2 x hx), ?_⟩
      intro f1 hf1 b hb s t htok
      rcases List.mem_cons.mp hf1 with hh | hh
      · subst hh
        exact i2 _ (r3 b hb s t htok)
      · exact i3 f1 hh b hb s t htok

theorem nextLine_shrinks (b b1 : Reader) (line : Str)
    (h : nextLine b = (.ok (line, none), b1)) : b1.data.length < b.data.length := by
  unfold nextLine ReadString at h
  cases hs : splitDelim nl b.data with
  | none => simp [hs, stripLine] at h
  | some lr =>
    obtain ⟨l, r⟩ := lr
    simp only [hs, Prod.mk.injEq] at h
    obtain ⟨body, hl, -, hdata⟩ := splitDelim_some hs
    rw [← h.2, hdata, hl]
    simp only [List.length_append, List.length_cons, List.length_nil]
    omega

/-- The loop of the parser returns or panics within a budget of more calls than
the input has bytes. -/
theorem parseLoop_total (edgeSep pairSep : Str) (fuel : Nat) (b : Reader) (g : Graph)
    (hfuel : b.data.length < fuel) :
    parseLoop edgeSep pairSep nextLine fuel b g ≠ .noReturn := by
  induction fuel generalizing b g with
  | zero => omega
  | succ fuel ih =>
    unfold parseLoop
    rcases hnext : nextLine b with ⟨_ | ⟨line, _ | e1⟩, b1⟩
    · simp
    · simp only
      rcases hp : parseLine edgeSep pairSep line g with ⟨g2, _ | e2⟩
      · simp only
        have := nextLine_shrinks b b1 line hnext
        exact ih b1 g2 (by omega)
      · simp
    · simp only
      split <;> simp
/-! ## The line source: claims -/

/-- C1: for every line of at least two bytes that the buffered reader returns
without error, the line source returns the line without its terminator and a nil
error; the terminator removed is the final carriage return and newline when the
line ends in them and the final newline otherwise, and the returned text
followed by the terminator is the line. -/
theorem lineSource_strips_terminator (b : Reader) (line : Str)
    (hread : (ReadString b nl).1 = (line, none)) (hlen : 2 ≤ line.length) :
    ∃ text term, (nextLine b).1 = .ok (text, none) ∧ text ++ term = line ∧
      term = (if [cr, nl] <:+ line then [cr, nl] else [nl]) := by
  have hsplit : ∃ rest, splitDelim nl b.data = some (line, rest) := by
    unfold ReadString at hread
    cases hs : splitDelim nl b.data with
    | none => simp [hs] at hread
    | some lr =>
      obtain ⟨l, r⟩ := lr
      simp only [hs, Prod.mk.injEq, and_true] at hread
      exact ⟨r, by rw [hread]⟩
  obtain ⟨rest, hs⟩ := hsplit
  obtain ⟨body, rfl, -, -⟩ := splitDelim_some hs
  have hnext : (nextLine b).1 = stripLine (body ++ [nl], none) := by
    simp only [nextLine, hread]
  rcases List.eq_nil_or_concat body with h0 | ⟨pre, c, rfl⟩
  · subst h0
    simp at hlen
  · rw [List.concat_eq_append]
    have happ : pre ++ [c] ++ [nl] = pre ++ [c, nl] := by simp
    rw [List.concat_eq_append, happ] at hnext
    rw [happ]
    by_cases hc : c = cr
    · subst hc
      refine ⟨pre, [cr, nl], ?_, rfl, ?_⟩
      · rw [hnext, stripLine_crlf]
      · rw [if_pos (List.suffix_append pre [cr, nl])]
    · refine ⟨pre ++ [c], [nl], ?_, by simp, ?_⟩
      · rw [hnext, stripLine_lf pre c hc]
      · have hns : ¬ ([cr, nl] <:+ pre ++ [c, nl]) := by
          rintro ⟨t, ht⟩
          have h1 := congrArg List.reverse ht
          simp only [List.reverse_append, List.reverse_cons, List.reverse_nil,
            List.nil_append, List.cons_append, List.cons.injEq, true_and] at h1
          exact hc h1.1.symm
        rw [if_neg hns]

/-- Witness of C1: the first line of the input `"A-B\r\nC\n"`. -/
theorem lineSource_strips_terminator_witness :
    ∃ text term, (nextLine ⟨ascii "A-B\r\nC\n", .EOF⟩).1 = .ok (text, none) ∧
      text ++ term = ascii "A-B\r\n" ∧
      term = (if [cr, nl] <:+ ascii "A-B\r\n" then [cr, nl] else [nl]) :=
  lineSource_strips_terminator ⟨ascii "A-B\r\nC\n", .EOF⟩ (ascii "A-B\r\n") (by rfl) (by decide)

/-- C2, evaluated on the code: when the next line of the input is just the
terminator, the line source indexes the one-byte line at -1 and panics; the run
`printf "A-B\\n\\nC-D\\n" | topsort` ends in that panic at its second line. -/
theorem lineSource_empty_line_panics (rest : Str) (e : Err) :
    nextLine ⟨nl :: rest, e⟩ = (.error (.indexOutOfRange (-1) 1), ⟨rest, e⟩) ∧
    RunE (exampleEnv (ascii ",") (ascii "-") false [] (ascii "A-B\n\nC-D\n")) [] =
      ⟨[.newGraph, .parseLines dash], .crash (.indexOutOfRange (-1) 1)⟩ := by
  have hs : splitDelim nl (nl :: rest) = some ([nl], rest) := by simp [splitDelim]
  refine ⟨?_, by rfl⟩
  simp only [nextLine, ReadString, hs]
  rfl

/-- C10: when no newline is left in the input, the line source returns the empty
string with the error of the reader and the text read is dropped. On an input
made of terminated lines followed by an unterminated tail, the calls of the line
source give what they give without the tail; when the lines are not empty, they
deliver the lines and then the error, never the tail. -/
theorem lineSource_drops_unterminated_tail (bodies : List Str) (tail : Str) (e : Err) (n : Nat)
    (hb : ∀ x ∈ bodies, nl ∉ x) (ht : nl ∉ tail) :
    nextLine ⟨tail, e⟩ = (.ok ([], some e), ⟨[], e⟩) ∧
    pull n ⟨(bodies.map (fun x => x ++ [nl])).flatten ++ tail, e⟩ =
      pull n ⟨(bodies.map (fun x => x ++ [nl])).flatten, e⟩ ∧
    ((∀ x ∈ bodies, x ≠ []) → bodies.length < n →
      pull n ⟨(bodies.map (fun x => x ++ [nl])).flatten ++ tail, e⟩ =
        bodies.map (fun x => .ok (dropCR x, none)) ++ [.ok ([], some e)]) := by
  refine ⟨nextLine_tail tail e ht, pull_ignores_tail bodies tail e n hb ht, ?_⟩
  intro hne hn
  induction bodies generalizing n with
  | nil =>
    obtain ⟨m, rfl⟩ : ∃ m, n = m + 1 := ⟨n - 1, by simp at hn; omega⟩
    simp only [List.map_nil, List.flatten_nil, List.nil_append, pull, nextLine_tail tail e ht]
  | cons x xs ih =>
    obtain ⟨m, rfl⟩ : ∃ m, n = m + 1 := ⟨n - 1, by simp at hn; omega⟩
    have hx := hb x (List.mem_cons_self _ _)
    have hx0 := hne x (List.mem_cons_self _ _)
    have hxs : ∀ y ∈ xs, nl ∉ y := fun y hy => hb y (List.mem_cons_of_mem _ hy)
    have hxs0 : ∀ y ∈ xs, y ≠ [] := fun y hy => hne y (List.mem_cons_of_mem _ hy)
    have hm : xs.length < m := by simp at hn; omega
    have hdata : ((x :: xs).map (fun x => x ++ [nl])).flatten ++ tail =
        x ++ nl :: ((xs.map (fun x => x ++ [nl])).flatten ++ tail) := by simp
    rw [hdata]
    simp only [pull, nextLine_line x _ e hx0 hx, List.map_cons, List.cons_append,
      ih m hxs hxs0 hm]

/-- Witness of C10: the input `"A-B\nC-D\r\nE-F"`, whose last line has no
newline. -/
theorem lineSource_drops_unterminated_tail_witness :
    nextLine ⟨ascii "E-F", .EOF⟩ = (.ok ([], some .EOF), ⟨[], .EOF⟩) ∧
    pull 3 ⟨([ascii "A-B", ascii "C-D\r"].map (fun x => x ++ [nl])).flatten ++ ascii "E-F", .EOF⟩ =
      pull 3 ⟨([ascii "A-B", ascii "C-D\r"].map (fun x => x ++ [nl])).flatten, .EOF⟩ ∧
    pull 3 ⟨([ascii "A-B", ascii "C-D\r"].map (fun x => x ++ [nl])).flatten ++ ascii "E-F", .EOF⟩ =
      [ascii "A-B", ascii "C-D\r"].map (fun x => .ok (dropCR x, none)) ++ [.ok ([], some .EOF)] :=
  ⟨(lineSource_drops_unterminated_tail [ascii "A-B", ascii "C-D\r"] (ascii "E-F") .EOF 3
      (by decide) (by decide)).1,
    (lineSource_drops_unterminated_tail [ascii "A-B", ascii "C-D\r"] (ascii "E-F") .EOF 3
      (by decide) (by decide)).2.1,
    (lineSource_drops_unterminated_tail [ascii "A-B", ascii "C-D\r"] (ascii "E-F") .EOF 3
      (by decide) (by decide)).2.2 (by decide) (by decide)⟩

/-! ## The command: claims -/

/-- C3: when the pair separator is empty the command returns the error "Pair
separator is empty.", when the edge separator is empty it returns "Edge
separator is empty.", both with an empty trace: no graph is created, no input is
opened or read, `ParseLines` is not called and nothing is written. When both
separators are non-empty the check of the flags raises no error. -/
theorem empty_separator_fails_fast {G : Type} (env : Env G) (args : List Str) :
    (env.getString "pair-sep" = ([], none) →
      RunE env args = ⟨[], .ret (some (.errorf "Pair separator is empty."))⟩) ∧
    (∀ p, env.getString "pair-sep" = (p, none) → p ≠ [] →
      env.getString "edge-sep" = ([], none) →
      RunE env args = ⟨[], .ret (some (.errorf "Edge separator is empty."))⟩) ∧
    (∀ p e t, env.getString "pair-sep" = (p, none) → env.getString "edge-sep" = (e, none) →
      env.getBool "top-sort" = (t, none) → p ≠ [] → e ≠ [] →
      readFlags env = .ok (p, e, t)) := by
  refine ⟨?_, ?_, ?_⟩
  · intro h
    simp [RunE, readFlags, h]
  · intro p hp hne he
    simp [RunE, readFlags, hp, hne, he]
  · intro p e t hp he ht hpne hene
    simp [readFlags, hp, he, ht, hpne, hene]

/-- Witness of C3: the help-text run with an empty pair separator, with an empty
edge separator, and with both separators in place. -/
theorem empty_separator_fails_fast_witness :
    RunE (exampleEnv [] (ascii "-") false [] helpInput) [] =
      ⟨[], .ret (some (.errorf "Pair separator is empty."))⟩ ∧
    RunE (exampleEnv (ascii ",") [] false [] helpInput) [] =
      ⟨[], .ret (some (.errorf "Edge separator is empty."))⟩ ∧
    readFlags (helpEnv false) = .ok (ascii ",", ascii "-", false) :=
  ⟨(empty_separator_fails_fast (exampleEnv [] (ascii "-") false [] helpInput) []).1 rfl,
    (empty_separator_fails_fast (exampleEnv (ascii ",") [] false [] helpInput) []).2.1
      (ascii ",") rfl (by decide) rfl,
    (empty_separator_fails_fast (helpEnv false) []).2.2 (ascii ",") (ascii "-") false
      rfl rfl rfl (by decide) (by decide)⟩

/-- C4: once every input of the list has been parsed without error, the trace
of the command is the creation of the graph and the reading of the inputs, in
which no classifier runs and nothing is written, then one call of `TopSort` when
the flag is true and of `DepthFirst` when it is false, then the writes of the
labels that call returned; the selected classifier is called once and the other
one never. The flag is false by default. -/
theorem selector_runs_one_classifier {G : Type} (env : Env G) (args : List Str) (p e : Str)
    (t : Bool) (names : List Str) (tr : List Event) (g : G)
    (hf : readFlags env = .ok (p, e, t)) (hn : filesNames env.abs args = .ok names)
    (hr : readAll env e p names env.lib.NewGraph = (tr, .ret (.ok g))) :
    (∀ ev ∈ Event.newGraph :: tr, ev ≠ .topSort ∧ ev ≠ .depthFirst ∧ ∀ s, ev ≠ .write s) ∧
    tr.filterMap parsedInput = names ∧
    (t = true → (RunE env args).trace =
      .newGraph :: tr ++ .topSort :: printed (env.lib.TopSort g)) ∧
    (t = false → (RunE env args).trace =
      .newGraph :: tr ++ .depthFirst :: printed (env.lib.DepthFirst g)) ∧
    (RunE env args).trace.count .topSort = (if t then 1 else 0) ∧
    (RunE env args).trace.count .depthFirst = (if t then 0 else 1) ∧
    initFlags.2 "top-sort" = (false, none) := by
  have hq : ∀ ev ∈ Event.newGraph :: tr,
      ev ≠ .topSort ∧ ev ≠ .depthFirst ∧ ∀ s, ev ≠ .write s := by
    intro ev hev
    rcases List.mem_cons.mp hev with h | h
    · subst h; simp
    · have := readAll_quiet env e p names env.lib.NewGraph ev (by rw [hr]; exact h)
      exact this.2
  have hrun := RunE_of_read env args p e t names tr g hf hn hr
  have htrace : (RunE env args).trace =
      (.newGraph :: tr) ++ (classify env.lib t g).trace := by rw [hrun]
  have hc1 : (Event.newGraph :: tr).count .topSort = 0 :=
    List.count_eq_zero.mpr (fun hmem => (hq _ hmem).1 rfl)
  have hc2 : (Event.newGraph :: tr).count .depthFirst = 0 :=
    List.count_eq_zero.mpr (fun hmem => (hq _ hmem).2.1 rfl)
  have hp1 : ∀ r : Outcome (List Str × Option Err), (printed r).count .topSort = 0 := by
    intro r
    apply List.count_eq_zero.mpr
    intro h
    obtain ⟨s, hs⟩ := printed_mem h
    cases hs
  have hp2 : ∀ r : Outcome (List Str × Option Err), (printed r).count .depthFirst = 0 := by
    intro r
    apply List.count_eq_zero.mpr
    intro h
    obtain ⟨s, hs⟩ := printed_mem h
    cases hs
  refine ⟨hq, readAll_parsed_of_ok env e p names _ g tr hr, ?_, ?_, ?_, ?_, rfl⟩
  · intro ht
    rw [htrace, classify_trace, ht]; rfl
  · intro ht
    rw [htrace, classify_trace, ht]; rfl
  · rw [htrace, List.count_append, hc1, classify_trace]
    cases t <;> simp [hp1, hp2]
  · rw [htrace, List.count_append, hc2, classify_trace]
    cases t <;> simp [hp1, hp2]

/-- Witness of C4: the help-text run with the flag set and with the flag
unset. -/
theorem selector_runs_one_classifier_witness :
    ((RunE (helpEnv true) []).trace =
        .newGraph :: [.parseLines dash] ++ .topSort :: printed ((helpEnv true).lib.TopSort helpGraph) ∧
      (RunE (helpEnv true) []).trace.count .topSort = 1 ∧
      (RunE (helpEnv true) []).trace.count .depthFirst = 0) ∧
    ((RunE (helpEnv false) []).trace =
        .newGraph :: [.parseLines dash] ++
          .depthFirst :: printed ((helpEnv false).lib.DepthFirst helpGraph) ∧
      (RunE (helpEnv false) []).trace.count .topSort = 0 ∧
      (RunE (helpEnv false) []).trace.count .depthFirst = 1) :=
  ⟨⟨(selector_runs_one_classifier (helpEnv true) [] (ascii ",") (ascii "-") true [dash]
        [.parseLines dash] helpGraph rfl rfl rfl).2.2.1 rfl,
      (selector_runs_one_classifier (helpEnv true) [] (ascii ",") (ascii "-") true [dash]
        [.parseLines dash] helpGraph rfl rfl rfl).2.2.2.2.1,
      (selector_runs_one_classifier (helpEnv true) [] (ascii ",") (ascii "-") true [dash]
        [.parseLines dash] helpGraph rfl rfl rfl).2.2.2.2.2.1⟩,
    ⟨(selector_runs_one_classifier (helpEnv false) [] (ascii ",") (ascii "-") false [dash]
        [.parseLines dash] helpGraph rfl rfl rfl).2.2.2.1 rfl,
      (selector_runs_one_classifier (helpEnv false) [] (ascii ",") (ascii "-") false [dash]
        [.parseLines dash] helpGraph rfl rfl rfl).2.2.2.2.1,
      (selector_runs_one_classifier (helpEnv false) [] (ascii ",") (ascii "-") false [dash]
        [.parseLines dash] helpGraph rfl rfl rfl).2.2.2.2.2.1⟩⟩

/-- C5: when the command succeeds, the selected algorithm returned its labels
with a nil error, the strings written to standard output are these labels, each
followed by one newline, in the order of the result, and the text on standard
output is their concatenation. -/
theorem success_prints_result {G : Type} (env : Env G) (args : List Str)
    (hres : (RunE env args).result = .ret none) :
    ∃ p e t names tr g results,
      readFlags env = .ok (p, e, t) ∧ filesNames env.abs args = .ok names ∧
      readAll env e p names env.lib.NewGraph = (tr, .ret (.ok g)) ∧
      (if t then env.lib.TopSort g else env.lib.DepthFirst g) = .ret (results, none) ∧
      (RunE env args).trace.filterMap written = results.map (fun r => r ++ [nl]) ∧
      stdout (RunE env args).trace = (results.map (fun r => r ++ [nl])).flatten := by
  rcases hf : readFlags env with err | ⟨p, e, t⟩
  · simp [RunE, hf] at hres
  rcases hn : filesNames env.abs args with err | names
  · simp [RunE, hf, hn] at hres
  rcases hr : readAll env e p names env.lib.NewGraph with ⟨tr, (err | g) | q | _⟩
  · simp [RunE, hf, hn, hr] at hres
  · have hrun := RunE_of_read env args p e t names tr g hf hn hr
    have hq : ∀ ev ∈ Event.newGraph :: tr, ∀ s, ev ≠ .write s := by
      intro ev hev
      rcases List.mem_cons.mp hev with h | h
      · subst h; simp
      · exact (readAll_quiet env e p names env.lib.NewGraph ev (by rw [hr]; exact h)).2.2.2
    have htrace : (RunE env args).trace =
        (.newGraph :: tr) ++ (classify env.lib t g).trace := by rw [hrun]
    have hresult : (classify env.lib t g).result = .ret none := by rw [hrun] at hres; exact hres
    rw [classify_result] at hresult
    rcases hc : (if t then env.lib.TopSort g else env.lib.DepthFirst g)
      with ⟨results, _ | err⟩ | q | _
    · have hprinted : (classify env.lib t g).trace =
          (if t then Event.topSort else Event.depthFirst) ::
            results.map (fun r => Event.write (r ++ [nl])) := by
        rw [classify_trace]
        cases t
        · simp only [Bool.false_eq_true, if_false] at hc ⊢
          rw [hc]; rfl
        · simp only [if_true] at hc ⊢
          rw [hc]; rfl
      refine ⟨p, e, t, names, tr, g, results, rfl, rfl, hr, hc, ?_, ?_⟩
      · rw [htrace, List.filterMap_append, written_quiet _ hq, hprinted, List.nil_append,
          List.filterMap_cons]
        cases t <;> exact written_writes results
      · rw [htrace, stdout_append, stdout_quiet _ hq, hprinted, List.nil_append]
        cases t <;> exact stdout_writes results
    · rw [hc] at hresult; simp at hresult
    · rw [hc] at hresult; simp at hresult
    · rw [hc] at hresult; simp at hresult
  · simp [RunE, hf, hn, hr] at hres
  · simp [RunE, hf, hn, hr] at hres

/-- Witness of C5: the help-text run with the default selector succeeds. -/
theorem success_prints_result_witness :
    (RunE (helpEnv false) []).result = .ret none ∧
    ∃ p e t names tr g results,
      readFlags (helpEnv false) = .ok (p, e, t) ∧
      filesNames (helpEnv false).abs [] = .ok names ∧
      readAll (helpEnv false) e p names (helpEnv false).lib.NewGraph = (tr, .ret (.ok g)) ∧
      (if t then (helpEnv false).lib.TopSort g else (helpEnv false).lib.DepthFirst g) =
        .ret (results, none) ∧
      (RunE (helpEnv false) []).trace.filterMap written = results.map (fun r => r ++ [nl]) ∧
      stdout (RunE (helpEnv false) []).trace = (results.map (fun r => r ++ [nl])).flatten :=
  ⟨rfl, success_prints_result (helpEnv false) [] rfl⟩

/-- C6: when the selected classifier returns an error, the command returns that
error wrapped with the name of the classifier and writes nothing to standard
output, whatever labels came back with the error. -/
theorem classifier_error_prints_nothing {G : Type} (env : Env G) (args : List Str) (p e : Str)
    (t : Bool) (names : List Str) (tr : List Event) (g : G) (results : List Str) (err : Err)
    (hf : readFlags env = .ok (p, e, t)) (hn : filesNames env.abs args = .ok names)
    (hr : readAll env e p names env.lib.NewGraph = (tr, .ret (.ok g)))
    (hc : (if t then env.lib.TopSort g else env.lib.DepthFirst g) = .ret (results, some err)) :
    (RunE env args).result =
      .ret (some (.wrap err (if t then "Top Sort classifier" else "Depth-First classifier") [])) ∧
    (RunE env args).trace =
      .newGraph :: tr ++ [if t then Event.topSort else Event.depthFirst] ∧
    (∀ s, Event.write s ∉ (RunE env args).trace) ∧
    (RunE env args).trace.filterMap written = [] ∧
    stdout (RunE env args).trace = [] := by
  have hrun := RunE_of_read env args p e t names tr g hf hn hr
  have hcl : (classify env.lib t g).trace = [if t then Event.topSort else Event.depthFirst] := by
    rw [classify_trace]
    cases t
    · simp only [Bool.false_eq_true, if_false] at hc ⊢
      rw [hc]; rfl
    · simp only [if_true] at hc ⊢
      rw [hc]; rfl
  have htrace : (RunE env args).trace =
      .newGraph :: tr ++ [if t then Event.topSort else Event.depthFirst] := by
    rw [hrun, hcl]
  have hq : ∀ ev ∈ (RunE env args).trace, ∀ s, ev ≠ .write s := by
    intro ev hev
    rw [htrace] at hev
    rcases List.mem_cons.mp hev with h | h
    · subst h; simp
    · rcases List.mem_append.mp h with h | h
      · exact (readAll_quiet env e p names env.lib.NewGraph ev (by rw [hr]; exact h)).2.2.2
      · rw [List.mem_singleton] at h
        subst h
        cases t <;> simp
  refine ⟨?_, htrace, fun s hmem => hq _ hmem s rfl, written_quiet _ hq, stdout_quiet _ hq⟩
  rw [hrun]
  show (classify env.lib t g).result = _
  rw [classify_result, hc]

/-- Witness of C6: the run on an input with a cycle, with the flag set. -/
theorem classifier_error_prints_nothing_witness :
    (RunE (cycleEnv true) []).result =
      .ret (some (.wrap (.cycleError [ascii "A", ascii "B"])
        (if true then "Top Sort classifier" else "Depth-First classifier") [])) ∧
    (RunE (cycleEnv true) []).trace =
      .newGraph :: [.parseLines dash] ++ [if true then Event.topSort else Event.depthFirst] ∧
    (∀ s, Event.write s ∉ (RunE (cycleEnv true) []).trace) ∧
    (RunE (cycleEnv true) []).trace.filterMap written = [] ∧
    stdout (RunE (cycleEnv true) []).trace = [] :=
  classifier_error_prints_nothing (cycleEnv true) [] (ascii ",") (ascii "-") true [dash]
    [.parseLines dash] cycleGraph [] (.cycleError [ascii "A", ascii "B"]) rfl rfl rfl rfl

/-- C9: the inputs are read in list order into the graph the previous inputs
left; when the inputs before input `f` were parsed without error and reading `f`
fails, the trace ends with the events of reading `f`, no later input is opened
or parsed, no classifier runs, nothing is written, and the command returns the
error wrapped with the name of `f`. -/
theorem halts_on_first_failure {G : Type} (env : Env G) (args : List Str) (p e : Str)
    (t : Bool) (pre post : List Str) (f : Str) (tr trf : List Event) (g g1 : G) (err : Err)
    (hf : readFlags env = .ok (p, e, t))
    (hn : filesNames env.abs args = .ok (pre ++ f :: post))
    (hpre : readAll env e p pre env.lib.NewGraph = (tr, .ret (.ok g)))
    (hfail : read env e p f g = (trf, .ret (g1, some err))) :
    RunE env args =
      ⟨.newGraph :: tr ++ trf, .ret (some (.wrap err "Read from %q failed" [f]))⟩ ∧
    tr.filterMap parsedInput = pre ∧
    (∀ ev ∈ trf, ev.onInput f) ∧
    (∀ f1 ∈ post, ∀ ev ∈ (RunE env args).trace, ¬ ev.onInput f1) ∧
    Event.topSort ∉ (RunE env args).trace ∧
    Event.depthFirst ∉ (RunE env args).trace ∧
    (∀ s, Event.write s ∉ (RunE env args).trace) ∧
    stdout (RunE env args).trace = [] := by
  have hnodup : (pre ++ f :: post).Nodup := filesNames_nodup _ _ _ hn
  have hall : readAll env e p (pre ++ f :: post) env.lib.NewGraph =
      (tr ++ trf, .ret (.error (.wrap err "Read from %q failed" [f]))) := by
    rw [readAll_append env e p pre (f :: post) _ g tr hpre,
      readAll_cons_err env e p f post g g1 trf err hfail]
  have hrun : RunE env args =
      ⟨.newGraph :: tr ++ trf, .ret (some (.wrap err "Read from %q failed" [f]))⟩ := by
    simp only [RunE, hf, hn, hall]
    rfl
  have htrf : ∀ ev ∈ trf, ev.onInput f := by
    intro ev hev
    have := read_trace env e p f g ev
    rw [hfail] at this
    exact this hev
  have htr : ∀ ev ∈ tr, ∃ f0 ∈ pre, ev.onInput f0 := by
    intro ev hev
    have := readAll_trace env e p pre env.lib.NewGraph ev
    rw [hpre] at this
    exact this hev
  have hmem : ∀ ev ∈ (RunE env args).trace,
      ev = .newGraph ∨ ∃ f0 ∈ pre ++ [f], ev.onInput f0 := by
    intro ev hev
    rw [hrun] at hev
    rcases List.mem_cons.mp hev with h | h
    · exact Or.inl h
    · rcases List.mem_append.mp h with h | h
      · obtain ⟨f0, h0, hon⟩ := htr ev h
        exact Or.inr ⟨f0, List.mem_append_left _ h0, hon⟩
      · exact Or.inr ⟨f, by simp, htrf ev h⟩
  have hquiet : ∀ ev ∈ (RunE env args).trace,
      ev ≠ .topSort ∧ ev ≠ .depthFirst ∧ ∀ s, ev ≠ .write s := by
    intro ev hev
    rcases hmem ev hev with h | ⟨f0, -, hon⟩
    · subst h; simp
    · exact (onInput_quiet hon).2
  refine ⟨hrun, readAll_parsed_of_ok env e p pre _ g tr hpre, htrf, ?_,
    fun h => (hquiet _ h).1 rfl, fun h => (hquiet _ h).2.1 rfl,
    fun s h => (hquiet _ h).2.2 s rfl, stdout_quiet _ (fun ev hev => (hquiet ev hev).2.2)⟩
  intro f1 hf1 ev hev hon
  rcases hmem ev hev with h | ⟨f0, h0, hon0⟩
  · subst h
    rcases hon with h | h | h <;> cases h
  · have hsame : f0 = f1 := by
      rcases hon with h | h | h <;> rcases hon0 with h0 | h0 | h0 <;> subst h <;>
        first
        | (injection h0 with h0; exact h0.symm)
        | cases h0
    subst hsame
    have hnd : (pre ++ [f] ++ post).Nodup := by simpa using hnodup
    exact (List.nodup_append.mp hnd).2.2 h0 hf1

/-- Witness of C9: the run with files, in which the third input `/y` cannot be
opened and the fourth input `/z` is never touched. -/
theorem halts_on_first_failure_witness :
    RunE filesEnv filesArgs =
      ⟨.newGraph :: [.openFile (ascii "/x"), .parseLines (ascii "/x"), .closeFile (ascii "/x"),
          .parseLines dash] ++ [.openFile (ascii "/y")],
        .ret (some (.wrap (.sys 2) "Read from %q failed" [ascii "/y"]))⟩ ∧
    [Event.openFile (ascii "/x"), .parseLines (ascii "/x"), .closeFile (ascii "/x"),
      .parseLines dash].filterMap parsedInput = [ascii "/x", dash] ∧
    (∀ ev ∈ [Event.openFile (ascii "/y")], ev.onInput (ascii "/y")) ∧
    (∀ f1 ∈ [ascii "/z"], ∀ ev ∈ (RunE filesEnv filesArgs).trace, ¬ ev.onInput f1) ∧
    Event.topSort ∉ (RunE filesEnv filesArgs).trace ∧
    Event.depthFirst ∉ (RunE filesEnv filesArgs).trace ∧
    (∀ s, Event.write s ∉ (RunE filesEnv filesArgs).trace) ∧
    stdout (RunE filesEnv filesArgs).trace = [] :=
  halts_on_first_failure filesEnv filesArgs (ascii ",") (ascii "-") true
    [ascii "/x", dash] [ascii "/z"] (ascii "/y")
    [.openFile (ascii "/x"), .parseLines (ascii "/x"), .closeFile (ascii "/x"), .parseLines dash]
    [.openFile (ascii "/y")] filesGraph filesGraph (.sys 2) rfl rfl rfl rfl

/-- C8: with no argument the list of inputs is `["-"]`; otherwise the list,
which exists exactly when the absolute path of every argument other than `"-"`
is found, holds the names the arguments stand for (the absolute path, or `"-"`
itself), each once, ordered by their first occurrence among the arguments. No
input is opened or parsed twice in a run. -/
theorem inputs_list {G : Type} (env : Env G) (args : List Str) :
    (args = [] → filesNames env.abs args = .ok [dash]) ∧
    (args ≠ [] → ((∃ names, filesNames env.abs args = .ok names) ↔
      ∀ f ∈ args, f ≠ dash → (env.abs f).2 = none)) ∧
    (args ≠ [] → ∀ names, filesNames env.abs args = .ok names →
      names.Nodup ∧
        (∀ x, x ∈ names ↔ x ∈ args.map (resolved env.abs)) ∧
        names.Pairwise (fun x y =>
          firstIndex x (args.map (resolved env.abs)) <
            firstIndex y (args.map (resolved env.abs)))) ∧
    (∀ f, (RunE env args).trace.count (.parseLines f) ≤ 1 ∧
      (RunE env args).trace.count (.openFile f) ≤ 1) := by
  have hcollect : args ≠ [] → filesNames env.abs args = collectNames env.abs args [] [] := by
    intro hne
    unfold filesNames
    rw [if_neg (by simpa using hne)]
  refine ⟨?_, ?_, ?_, ?_⟩
  · intro h
    subst h
    rfl
  · intro hne
    constructor
    · rintro ⟨names, hfn⟩
      rw [hcollect hne] at hfn
      exact collectNames_abs_ok env.abs args [] [] names hfn
    · intro habs
      obtain ⟨out, hres, -, -⟩ := collectNames_spec env.abs args [] [] habs (by simp)
      exact ⟨out, by rw [hcollect hne, hres]; rfl⟩
  · intro hne names hfn
    have habs := collectNames_abs_ok env.abs args [] [] names (by rw [← hcollect hne]; exact hfn)
    obtain ⟨out, hres, hout, hpw⟩ := collectNames_spec env.abs args [] [] habs (by simp)
    have hsame : names = out := by
      rw [hcollect hne, hres] at hfn
      simpa using hfn.symm
    subst hsame
    exact ⟨filesNames_nodup _ _ _ hfn, by simpa using hout, hpw⟩
  · intro f
    unfold RunE
    split
    · simp
    · rename_i pairSep edgeSep topSort hf
      split
      · simp
      · rename_i names hn
        have hnd := filesNames_nodup _ _ _ hn
        have hc := readAll_count env edgeSep pairSep f names env.lib.NewGraph hnd
        split <;> rename_i heq <;> rw [heq] at hc <;>
          simp only [List.count_cons, List.count_append, classify_no_input, reduceCtorEq,
            beq_iff_eq, if_false, Nat.add_zero] <;>
          exact hc

/-- Witness of C8: the run with files, whose arguments name `/x` twice. -/
theorem inputs_list_witness :
    filesNames filesEnv.abs [] = .ok [dash] ∧
    filesNames filesEnv.abs filesArgs = .ok [ascii "/x", dash, ascii "/y", ascii "/z"] ∧
    (∃ names, filesNames filesEnv.abs filesArgs = .ok names) ∧
    ([ascii "/x", dash, ascii "/y", ascii "/z"].Nodup ∧
      (∀ x, x ∈ [ascii "/x", dash, ascii "/y", ascii "/z"] ↔
        x ∈ filesArgs.map (resolved filesEnv.abs)) ∧
      [ascii "/x", dash, ascii "/y", ascii "/z"].Pairwise (fun x y =>
        firstIndex x (filesArgs.map (resolved filesEnv.abs)) <
          firstIndex y (filesArgs.map (resolved filesEnv.abs)))) ∧
    (∀ f, (RunE filesEnv filesArgs).trace.count (.parseLines f) ≤ 1 ∧
      (RunE filesEnv filesArgs).trace.count (.openFile f) ≤ 1) :=
  ⟨(inputs_list filesEnv []).1 rfl, rfl,
    ((inputs_list filesEnv filesArgs).2.1 (by decide)).mpr (fun _ _ _ => rfl),
    (inputs_list filesEnv filesArgs).2.2.1 (by decide) _ rfl,
    (inputs_list filesEnv filesArgs).2.2.2⟩
/-- C7: with the library modelled from the spec and the top-sort flag set, when
the graph parsed from the inputs has no cycle the command succeeds and prints a
result in which every label stands once and, for every edge `(s, t)` of the
graph and for every pair-token of a delivered input line that splits into `s`
and `t` at its first edge separator, `s` stands before `t`. For the line
`A-B,B-C,B-D,E-D,F` with separators `-` and `,` the command prints A, E, F, B,
C, D: A before B, B before C and D, E before D. -/
theorem topSort_prints_sources_first (fuel : Nat) (env : Env Graph) (args : List Str)
    (p e : Str) (names : List Str) (tr : List Event) (g : Graph)
    (hlib : env.lib = specLib fuel)
    (hf : readFlags env = .ok (p, e, true))
    (hn : filesNames env.abs args = .ok names)
    (hr : readAll env e p names env.lib.NewGraph = (tr, .ret (.ok g)))
    (hac : ¬ g.HasCycle) (hfuel : g.nodes.length ≤ fuel) :
    (∃ res, (RunE env args).result = .ret none ∧
      (RunE env args).trace.filterMap written = res.map (fun r => r ++ [nl]) ∧
      res.Nodup ∧
      (∀ s t, (s, t) ∈ g.edges → s ∈ res ∧ t ∈ res ∧ firstIndex s res < firstIndex t res) ∧
      ∀ f ∈ names, ∀ b, inputOf env f = some b → ∀ s t, TokenEdge e p b s t →
        s ∈ res ∧ t ∈ res ∧ firstIndex s res < firstIndex t res) ∧
    ((RunE (helpEnv true) []).trace.filterMap written =
        [ascii "A", ascii "E", ascii "F", ascii "B", ascii "C", ascii "D"].map
          (fun r => r ++ [nl]) ∧
      stdout (RunE (helpEnv true) []).trace = ascii "A\nE\nF\nB\nC\nD\n") := by
  refine ⟨?_, by decide, by decide⟩
  have hnew : env.lib.NewGraph = NewGraph := by rw [hlib]; rfl
  have hts : env.lib.TopSort g = TopSort fuel g := by rw [hlib]; rfl
  obtain ⟨hwf, -, htok⟩ := readAll_spec fuel env hlib e p names _ g tr
    (by rw [hnew]; exact NewGraph_WF) hr
  obtain ⟨res, hres⟩ := TopSort_complete g hwf fuel hfuel hac
  obtain ⟨hnd, -, hord⟩ := TopSort_sound g hwf fuel res hres
  have hrun := RunE_of_read env args p e true names tr g hf hn hr
  have hq : ∀ ev ∈ Event.newGraph :: tr, ∀ s, ev ≠ .write s := by
    intro ev hev
    rcases List.mem_cons.mp hev with h | h
    · subst h; simp
    · exact (readAll_quiet env e p names env.lib.NewGraph ev (by rw [hr]; exact h)).2.2.2
  refine ⟨res, ?_, ?_, hnd, hord, ?_⟩
  · rw [hrun]
    show (classify env.lib true g).result = _
    rw [classify_result]
    simp only [if_true, hts, hres]
  · have htrace : (RunE env args).trace =
        (.newGraph :: tr) ++ (classify env.lib true g).trace := by rw [hrun]
    rw [htrace, List.filterMap_append, written_quiet _ hq, classify_trace]
    simp only [if_true, hts, hres, printed, List.nil_append, List.filterMap_cons, written]
    exact written_writes res
  · intro f hf1 b hb s t hst
    exact hord s t (htok f hf1 b hb s t hst)

/-- Witness of C7: the run `echo "A-B,B-C,B-D,E-D,F" | topsort -T`, in which
the token `A-B` of the line stands for the edge from A to B. -/
theorem topSort_prints_sources_first_witness :
    TokenEdge (ascii "-") (ascii ",") ⟨helpInput, .EOF⟩ (ascii "A") (ascii "B") ∧
    (∃ res, (RunE (helpEnv true) []).result = .ret none ∧
      (RunE (helpEnv true) []).trace.filterMap written = res.map (fun r => r ++ [nl]) ∧
      res.Nodup ∧
      (∀ s t, (s, t) ∈ helpGraph.edges →
        s ∈ res ∧ t ∈ res ∧ firstIndex s res < firstIndex t res) ∧
      ∀ f ∈ [dash], ∀ b, inputOf (helpEnv true) f = some b →
        ∀ s t, TokenEdge (ascii "-") (ascii ",") b s t →
        s ∈ res ∧ t ∈ res ∧ firstIndex s res < firstIndex t res) ∧
    ((RunE (helpEnv true) []).trace.filterMap written =
        [ascii "A", ascii "E", ascii "F", ascii "B", ascii "C", ascii "D"].map
          (fun r => r ++ [nl]) ∧
      stdout (RunE (helpEnv true) []).trace = ascii "A\nE\nF\nB\nC\nD\n") :=
  ⟨⟨1, ascii "A-B,B-C,B-D,E-D,F", ascii "A-B",
      (show Except.ok (ascii "A-B,B-C,B-D,E-D,F", none) ∈
        [(Except.ok (ascii "A-B,B-C,B-D,E-D,F", none) :
          Except RuntimeError (Str × Option Err))] from List.mem_singleton.mpr rfl),
      by decide, by rfl⟩,
  topSort_prints_sources_first 100 (helpEnv true) [] (ascii ",") (ascii "-") [dash]
    [.parseLines dash] helpGraph rfl rfl rfl rfl
    (acyclic_of_TopSort helpGraph
      ⟨by decide, by decide, by decide, by decide⟩ 100
      [ascii "A", ascii "E", ascii "F", ascii "B", ascii "C", ascii "D"] rfl)
    (by decide)⟩

end Topsort
